import Mathlib

/-!
Verification of the rorth Forth-like language implementation (src/main.rs):
lexer, parser with control-flow cross-referencing, bytecode interpreter, and
x86-64 assembly emitter.  All definitions are shallow embeddings of the Rust
source; machine integers (i64) are modelled as `Int` with explicit
two's-complement wraparound where the source can overflow (release-profile
semantics), and fallible operations (process exits, panics) return `Except`.
-/

namespace Rorth

/-- Opcodes, one variant per Rust `enum Opcode` variant (src/main.rs:13-33). -/
inductive Opcode where
  | OP_PUSH
  | OP_ADD
  | OP_SUB
  | OP_MUL
  | OP_DIV
  | OP_NOT
  | OP_EQ
  | OP_NE
  | OP_GT
  | OP_LT
  | OP_GE
  | OP_LE
  | OP_DUP
  | OP_DUMP
  | OP_IF
  | OP_ELSE
  | OP_END
  | OP_WHILE
  | OP_DO
deriving DecidableEq

/-- `struct Instruction` (src/main.rs:36-40): opcode, i64 operand vector, ip. -/
structure Instruction where
  opcode : Opcode
  operands : List Int
  ip : Nat
deriving DecidableEq

/-- `struct Token` (src/main.rs:49-53).  `tok` is kept as a list of
characters so that lexer proofs can proceed by structural induction. -/
structure Token where
  tok : List Char
  row : Nat
  col : Nat
deriving DecidableEq

/-- Parser abort conditions.  Each `process::exit(1)` site in `parser`
(src/main.rs:228-342) gets a constructor carrying the diagnostic data the Rust
code prints (`file`, raw row and col, instruction index); `ixPanic` models a
Rust index-out-of-bounds panic and `expectedInteger` the `.expect` panic on a
non-integer token. -/
inductive PError where
  | elseWithoutIf (file : List Char) (row col ip : Nat)
  | doMismatch (file : List Char) (row col ip : Nat)
  | endPopWhile (file : List Char) (row col ip : Nat)
  | endDoWithoutWhile (file : List Char) (row col ip : Nat)
  | endWithoutOpener (file : List Char) (row col ip : Nat)
  | expectedInteger (file : List Char) (row col ip : Nat) (tok : List Char)
  | ixPanic
deriving DecidableEq

/-- Parser state: the emitted program and the cross-reference stack
(`crossref`, head = top of the Rust `Vec`). -/
structure PState where
  program : List Instruction
  crossref : List Nat
deriving DecidableEq

/-- In-place update of one list element, as Rust's `program[j] = ...`
mutations; out-of-range indices leave the list unchanged (callers check
bounds first, mirroring the panics). -/
def modifyAt {α : Type} : List α → Nat → (α → α) → List α
  | [], _, _ => []
  | a :: l, 0, f => f a :: l
  | a :: l, n+1, f => a :: modifyAt l n f

/-- `operands.push(v)` on a Rust `Vec<i64>` (append at the end). -/
def pushOperand (v : Int) (ins : Instruction) : Instruction :=
  { ins with operands := ins.operands ++ [v] }

/-- `operands.pop()` (drop the last element). -/
def popOperand (ins : Instruction) : Instruction :=
  { ins with operands := ins.operands.dropLast }

/-- `tok.parse::<i64>()`: optional sign, one or more ASCII digits, value must
fit 64-bit signed range (src/main.rs:335). -/
def parseI64 (s : List Char) : Option Int :=
  let core : Int × List Char :=
    match s with
    | '+' :: rest => (1, rest)
    | '-' :: rest => (-1, rest)
    | _ => (1, s)
  match core with
  | (sign, digits) =>
    if digits = [] then none
    else if digits.all (fun c => c.isDigit) then
      let n : Nat := digits.foldl (fun acc c => acc * 10 + (c.toNat - 48)) 0
      let v : Int := sign * (n : Int)
      if -(2^63) ≤ v ∧ v ≤ 2^63 - 1 then some v else none
    else none

/-- One iteration of the parser's token loop (src/main.rs:231-340).
`c` is the enumeration index `ip` of the current token `t`.  Note the `do`
branch: when the cross-reference stack is empty the Rust `if let` has no
`else`, so the token is silently skipped (no instruction, no error). -/
def parseStep (file : List Char) (c : Nat) (t : Token) (st : PState) :
    Except PError PState :=
  if t.tok = "+".data then .ok ⟨st.program ++ [⟨.OP_ADD, [], c⟩], st.crossref⟩
  else if t.tok = "-".data then .ok ⟨st.program ++ [⟨.OP_SUB, [], c⟩], st.crossref⟩
  else if t.tok = "*".data then .ok ⟨st.program ++ [⟨.OP_MUL, [], c⟩], st.crossref⟩
  else if t.tok = "/".data then .ok ⟨st.program ++ [⟨.OP_DIV, [], c⟩], st.crossref⟩
  else if t.tok = "!".data then .ok ⟨st.program ++ [⟨.OP_NOT, [], c⟩], st.crossref⟩
  else if t.tok = "=".data then .ok ⟨st.program ++ [⟨.OP_EQ, [], c⟩], st.crossref⟩
  else if t.tok = "!=".data then .ok ⟨st.program ++ [⟨.OP_NE, [], c⟩], st.crossref⟩
  else if t.tok = ">".data then .ok ⟨st.program ++ [⟨.OP_GT, [], c⟩], st.crossref⟩
  else if t.tok = ">=".data then .ok ⟨st.program ++ [⟨.OP_GE, [], c⟩], st.crossref⟩
  else if t.tok = "<".data then .ok ⟨st.program ++ [⟨.OP_LT, [], c⟩], st.crossref⟩
  else if t.tok = "<=".data then .ok ⟨st.program ++ [⟨.OP_LE, [], c⟩], st.crossref⟩
  else if t.tok = ".".data then .ok ⟨st.program ++ [⟨.OP_DUMP, [], c⟩], st.crossref⟩
  else if t.tok = "dup".data then .ok ⟨st.program ++ [⟨.OP_DUP, [], c⟩], st.crossref⟩
  else if t.tok = "if".data then
    .ok ⟨st.program ++ [⟨.OP_IF, [], c⟩], c :: st.crossref⟩
  else if t.tok = "else".data then
    match st.crossref with
    | [] => .error (.elseWithoutIf file t.row t.col c)
    | ifIp :: rest =>
      match (st.program ++ [⟨.OP_ELSE, [], c⟩])[ifIp]? with
      | none => .error .ixPanic
      | some ins =>
        if ins.opcode = .OP_IF then
          .ok ⟨modifyAt (st.program ++ [⟨.OP_ELSE, [], c⟩]) ifIp
                 (pushOperand (c : Int)), c :: rest⟩
        else .error (.elseWithoutIf file t.row t.col c)
  else if t.tok = "while".data then
    match (st.program ++ [⟨.OP_WHILE, [], c⟩])[c]? with
    | none => .error .ixPanic
    | some ins => .ok ⟨st.program ++ [⟨.OP_WHILE, [], c⟩], ins.ip :: st.crossref⟩
  else if t.tok = "do".data then
    match st.crossref with
    | [] => .ok st
    | whileIp :: rest =>
      match st.program[whileIp]? with
      | none => .error .ixPanic
      | some ins =>
        if ins.opcode = .OP_WHILE then
          match (st.program ++ [⟨.OP_DO, [], c⟩])[c]? with
          | none => .error .ixPanic
          | some insc =>
            .ok ⟨modifyAt (st.program ++ [⟨.OP_DO, [], c⟩]) c
                   (pushOperand (whileIp : Int)), insc.ip :: rest⟩
        else .error (.doMismatch file t.row t.col c)
  else if t.tok = "end".data then
    match st.crossref with
    | [] => .error (.endWithoutOpener file t.row t.col c)
    | prevIp :: rest =>
      match (st.program ++ [⟨.OP_END, [], c⟩])[prevIp]? with
      | none => .error .ixPanic
      | some pins =>
        if pins.opcode = .OP_IF ∨ pins.opcode = .OP_ELSE then
          .ok ⟨modifyAt (st.program ++ [⟨.OP_END, [], c⟩]) prevIp
                 (pushOperand (c : Int)), rest⟩
        else if pins.opcode = .OP_WHILE then
          .error (.endPopWhile file t.row t.col c)
        else if pins.opcode = .OP_DO then
          match pins.operands.getLast? with
          | none => .error (.endDoWithoutWhile file t.row t.col c)
          | some w =>
            match (modifyAt (st.program ++ [⟨.OP_END, [], c⟩]) prevIp
                     popOperand)[c]? with
            | none => .error .ixPanic
            | some _ =>
              .ok ⟨modifyAt (modifyAt (modifyAt (st.program ++ [⟨.OP_END, [], c⟩])
                       prevIp popOperand) c (pushOperand w)) prevIp
                     (pushOperand (c : Int)), rest⟩
        else .ok ⟨st.program ++ [⟨.OP_END, [], c⟩], rest⟩
  else
    match parseI64 t.tok with
    | none => .error (.expectedInteger file t.row t.col c t.tok)
    | some v => .ok ⟨st.program ++ [⟨.OP_PUSH, [v], c⟩], st.crossref⟩

/-- The parser's `for (ip, tok) in tokens.iter().enumerate()` loop, starting
at token index `c`. -/
def parseGo (file : List Char) : Nat → List Token → PState → Except PError PState
  | _, [], st => .ok st
  | c, t :: ts, st =>
    match parseStep file c t st with
    | .error e => .error e
    | .ok st' => parseGo file (c+1) ts st'

/-- `fn parser` (src/main.rs:228): run the loop from the empty program and
empty cross-reference stack and return the program (the cross-reference
stack is dropped without any unclosed-opener check). -/
def parser (file : List Char) (tokens : List Token) :
    Except PError (List Instruction) :=
  (parseGo file 0 tokens ⟨[], []⟩).map (·.program)

/-! ## Lexer (src/main.rs:199-210) -/

/-- `source.lines()`: split the character stream at each newline.  (Rust drops
a final empty line; that line contributes no tokens, so token output agrees.) -/
def splitNl : List Char → List (List Char)
  | [] => [[]]
  | c :: l =>
    if c = '\n' then [] :: splitNl l
    else
      match splitNl l with
      | [] => [[c]]
      | r :: rs => (c :: r) :: rs

/-- The next character is a slash (used to detect a `//` comment start). -/
def headSlash (l : List Char) : Bool := l.head? == some '/'

/-- `line.split("//").next().unwrap()`: the prefix of the line before the
first occurrence of `//`. -/
def stripComment : List Char → List Char
  | [] => []
  | c :: l => if c == '/' && headSlash l then [] else c :: stripComment l

/-- No two adjacent slashes anywhere in the text (so no `//` occurrence). -/
def noDbl : List Char → Bool
  | [] => true
  | c :: l => !(c == '/' && headSlash l) && noDbl l


/-- `split_whitespace()`: maximal runs of non-whitespace characters.  A
non-whitespace character either starts a new word (at the end of the text or
before whitespace) or is prepended to the word started by the next
character. -/
def words : List Char → List (List Char)
  | [] => []
  | c :: l =>
    let r := words l
    if c.isWhitespace then r
    else
      match l with
      | [] => [[c]]
      | d :: _ =>
        if d.isWhitespace then [c] :: r
        else
          match r with
          | [] => [[c]]
          | w :: rs => (c :: w) :: rs

/-- The token texts contributed by a list of lines. -/
def lineTexts : List (List Char) → List (List Char)
  | [] => []
  | line :: rest => words (stripComment line) ++ lineTexts rest

/-- Tokens of one line: `enumerate()` over its words gives the `col` field. -/
def lexCols (row : Nat) : Nat → List (List Char) → List Token
  | _, [] => []
  | j, w :: ws => ⟨w, row, j⟩ :: lexCols row (j+1) ws

/-- Tokens of all lines: `enumerate()` over lines gives the `row` field. -/
def lexLines : Nat → List (List Char) → List Token
  | _, [] => []
  | i, line :: rest =>
    lexCols i 0 (words (stripComment line)) ++ lexLines (i+1) rest

/-- `fn lexer` (src/main.rs:199), applied to the file's contents. -/
def lexer (source : List Char) : List Token :=
  lexLines 0 (splitNl source)

/-- The ordered token texts of a source, positions ignored. -/
def lexTexts (source : List Char) : List (List Char) :=
  (lexer source).map (·.tok)

/-- Re-concatenation of token texts by single spaces. -/
def joinSp : List (List Char) → List Char
  | [] => []
  | [w] => w
  | w :: w2 :: ws => w ++ ' ' :: joinSp (w2 :: ws)

/-! ## Interpreter (src/main.rs:344-460) -/

/-- Two's-complement wraparound into the 64-bit signed range, the
release-profile semantics of Rust `i64` `+`, `-`, `*` (spec §4.3). -/
def wrap64 (x : Int) : Int := (x + 2^63) % 2^64 - 2^63

/-- `ip = ins.operands[0] as usize`: an i64 reinterpreted as a 64-bit
unsigned index. -/
def intToUsize (v : Int) : Nat := (v % 2^64).toNat

/-- Interpreter abort conditions: `stack.pop().unwrap()` panics,
`operands[0]` panics, the checked empty pop at `DUMP`, the non-boolean check
at `NOT` (src/main.rs:381), and division panics. -/
inductive RTError where
  | stackUnderflow (ip : Nat)
  | operandPanic (ip : Nat)
  | notBoolean (ip : Nat) (a : Int)
  | dumpEmpty (ip : Nat)
  | divByZero (ip : Nat)
  | divOverflow (ip : Nat)
deriving DecidableEq

/-- Interpreter state: operand stack (head = top), instruction pointer, and
the bytes written so far to the output sink. -/
structure InterpState where
  stack : List Int
  ip : Nat
  out : String
deriving DecidableEq

/-- Result of one dispatch-loop iteration. -/
inductive StepRes where
  | next (s : InterpState)
  | halted (out : String)
  | fail (e : RTError)
deriving DecidableEq

/-- One iteration of `fn interpret`'s `while ip < program.len()` loop
(src/main.rs:348-459), including the final `ip += 1`. -/
def interpStep (program : List Instruction) (s : InterpState) : StepRes :=
  match program[s.ip]? with
  | none => .halted s.out
  | some ins =>
    match ins.opcode with
    | .OP_PUSH =>
      match ins.operands[0]? with
      | none => .fail (.operandPanic s.ip)
      | some v => .next ⟨v :: s.stack, s.ip + 1, s.out⟩
    | .OP_ADD =>
      match s.stack with
      | a :: b :: rest => .next ⟨wrap64 (a + b) :: rest, s.ip + 1, s.out⟩
      | _ => .fail (.stackUnderflow s.ip)
    | .OP_SUB =>
      match s.stack with
      | a :: b :: rest => .next ⟨wrap64 (b - a) :: rest, s.ip + 1, s.out⟩
      | _ => .fail (.stackUnderflow s.ip)
    | .OP_MUL =>
      match s.stack with
      | a :: b :: rest => .next ⟨wrap64 (a * b) :: rest, s.ip + 1, s.out⟩
      | _ => .fail (.stackUnderflow s.ip)
    | .OP_DIV =>
      match s.stack with
      | a :: b :: rest =>
        if a = 0 then .fail (.divByZero s.ip)
        else if b = -(2^63) ∧ a = -1 then .fail (.divOverflow s.ip)
        else .next ⟨Int.tdiv b a :: rest, s.ip + 1, s.out⟩
      | _ => .fail (.stackUnderflow s.ip)
    | .OP_NOT =>
      match s.stack with
      | a :: rest =>
        if a = 0 then .next ⟨1 :: rest, s.ip + 1, s.out⟩
        else if a = 1 then .next ⟨0 :: rest, s.ip + 1, s.out⟩
        else .fail (.notBoolean s.ip a)
      | _ => .fail (.stackUnderflow s.ip)
    | .OP_EQ =>
      match s.stack with
      | a :: b :: rest =>
        .next ⟨(if a = b then 1 else 0) :: rest, s.ip + 1, s.out⟩
      | _ => .fail (.stackUnderflow s.ip)
    | .OP_NE =>
      match s.stack with
      | a :: b :: rest =>
        .next ⟨(if a ≠ b then 1 else 0) :: rest, s.ip + 1, s.out⟩
      | _ => .fail (.stackUnderflow s.ip)
    | .OP_GT =>
      match s.stack with
      | a :: b :: rest =>
        .next ⟨(if b > a then 1 else 0) :: rest, s.ip + 1, s.out⟩
      | _ => .fail (.stackUnderflow s.ip)
    | .OP_GE =>
      match s.stack with
      | a :: b :: rest =>
        .next ⟨(if b ≥ a then 1 else 0) :: rest, s.ip + 1, s.out⟩
      | _ => .fail (.stackUnderflow s.ip)
    | .OP_LT =>
      match s.stack with
      | a :: b :: rest =>
        .next ⟨(if b < a then 1 else 0) :: rest, s.ip + 1, s.out⟩
      | _ => .fail (.stackUnderflow s.ip)
    | .OP_LE =>
      match s.stack with
      | a :: b :: rest =>
        .next ⟨(if b ≤ a then 1 else 0) :: rest, s.ip + 1, s.out⟩
      | _ => .fail (.stackUnderflow s.ip)
    | .OP_DUP =>
      match s.stack with
      | a :: rest => .next ⟨a :: a :: rest, s.ip + 1, s.out⟩
      | _ => .fail (.stackUnderflow s.ip)
    | .OP_DUMP =>
      match s.stack with
      | a :: rest => .next ⟨rest, s.ip + 1, s.out ++ toString a ++ "\n"⟩
      | _ => .fail (.dumpEmpty s.ip)
    | .OP_IF =>
      match s.stack with
      | a :: rest =>
        if a = 0 then
          match ins.operands[0]? with
          | none => .fail (.operandPanic s.ip)
          | some tgt => .next ⟨rest, intToUsize tgt + 1, s.out⟩
        else .next ⟨rest, s.ip + 1, s.out⟩
      | _ => .fail (.stackUnderflow s.ip)
    | .OP_ELSE =>
      match ins.operands[0]? with
      | none => .fail (.operandPanic s.ip)
      | some tgt => .next ⟨s.stack, intToUsize tgt + 1, s.out⟩
    | .OP_END =>
      if ins.operands.length = 1 then
        match ins.operands[0]? with
        | none => .fail (.operandPanic s.ip)
        | some tgt => .next ⟨s.stack, intToUsize tgt + 1, s.out⟩
      else .next ⟨s.stack, s.ip + 1, s.out⟩
    | .OP_WHILE => .next ⟨s.stack, s.ip + 1, s.out⟩
    | .OP_DO =>
      match s.stack with
      | a :: rest =>
        if a = 0 then
          match ins.operands[0]? with
          | none => .fail (.operandPanic s.ip)
          | some tgt => .next ⟨rest, intToUsize tgt + 1, s.out⟩
        else .next ⟨rest, s.ip + 1, s.out⟩
      | _ => .fail (.stackUnderflow s.ip)

/-- Outcome of a bounded run of the dispatch loop. -/
inductive InterpResult where
  | done (out : String)
  | err (e : RTError)
  | fuelOut
deriving DecidableEq

/-- The dispatch loop with a fuel bound (the Rust loop has no bound; a `done`
result certifies termination of the source loop). -/
def interpLoop (program : List Instruction) : Nat → InterpState → InterpResult
  | 0, _ => .fuelOut
  | fuel+1, s =>
    match interpStep program s with
    | .halted o => .done o
    | .fail e => .err e
    | .next s' => interpLoop program fuel s'

/-- `fn interpret` (src/main.rs:344): run from the empty stack at `ip = 0`
with an empty output sink. -/
def interpret (program : List Instruction) (fuel : Nat) : InterpResult :=
  interpLoop program fuel ⟨[], 0, ""⟩

/-- The lex → parse → interpret pipeline of the `interpret` subcommand,
applied to a source text; `none` means the parser aborted. -/
def runSource (src : List Char) (fuel : Nat) : Option InterpResult :=
  match parser src (lexer src) with
  | .ok p => some (interpret p fuel)
  | .error _ => none

/-! ## Code emitter (src/main.rs:474-666)

Each `writeln!` becomes one string in the emitted line list.  Rust panics on
a missing `operands[0]` are modelled by `Option`. -/

/-- The fixed prelude written before the instruction loop
(src/main.rs:478-515): symbolic constants, the `dump` routine, `_start`. -/
def preludeLines : List String :=
  [ "%define SYS_EXIT 60"
  , "%define SYS_WRITE 1"
  , "section .text"
  , "dump:"
  , "    sub     rsp, 40"
  , "    mov     rsi, rdi"
  , "    mov  r10, -3689348814741910323"
  , "    mov     BYTE [rsp+20], 10"
  , "    lea     rcx, [rsp+19]"
  , "    lea     r8, [rsp+21]"
  , ".L2:"
  , "    mov     rax, rsi"
  , "    mov     r9, r8"
  , "    mul     r10"
  , "    mov     rax, rsi"
  , "    sub     r9, rcx"
  , "    shr     rdx, 3"
  , "    lea     rdi, [rdx+rdx*4]"
  , "    add     rdi, rdi"
  , "    sub     rax, rdi"
  , "    add     eax, 48"
  , "    mov     BYTE [rcx], al"
  , "    mov     rax, rsi"
  , "    mov     rsi, rdx"
  , "    mov     rdx, rcx"
  , "    sub     rcx, 1"
  , "    cmp     rax, 9"
  , "    ja      .L2"
  , "    sub     rdx, r8"
  , "    mov     edi, 1"
  , "    lea     rsi, [rsp+21+rdx]"
  , "    mov     rdx, r9"
  , "    mov     rax, SYS_WRITE"
  , "    syscall"
  , "    add     rsp, 40"
  , "    ret"
  , "global _start"
  , "_start:" ]

/-- The epilogue after the instruction loop (src/main.rs:661-665). -/
def epilogueLines : List String :=
  [ ".end:"
  , "    mov rax, SYS_EXIT"
  , "    mov rdi, 0"
  , "    syscall"
  , "    ret" ]

/-- The `.addr_{ip}:` local label for an instruction pointer. -/
def addrLabel (ip : Nat) : String := ".addr_" ++ toString ip ++ ":"

/-- Lines emitted for one instruction (the match in src/main.rs:517-659).
An `END` with no operands emits nothing (`continue`, src/main.rs:641-643). -/
def emitIns (ins : Instruction) : Option (List String) :=
  match ins.opcode with
  | .OP_PUSH =>
    match ins.operands[0]? with
    | none => none
    | some v => some
      [ addrLabel ins.ip ++ " ;; OP_PUSH"
      , "    push " ++ toString v ]
  | .OP_ADD => some
      [ addrLabel ins.ip ++ " ;; OP_ADD"
      , "    pop rax", "    pop rbx", "    add rax, rbx", "    push rax" ]
  | .OP_SUB => some
      [ addrLabel ins.ip ++ " ;; OP_SUB"
      , "    pop rax", "    pop rbx", "    sub rbx, rax", "    push rbx" ]
  | .OP_MUL => some
      [ addrLabel ins.ip ++ " ;; OP_MUL"
      , "    pop rax", "    pop rbx", "    mul rbx", "    push rax" ]
  | .OP_DIV => some
      [ addrLabel ins.ip ++ " ;; OP_DIV"
      , "    xor rdx, rdx", "    pop rbx", "    pop rax", "    div rbx"
      , "    push rax", "    push rdx" ]
  | .OP_NOT => some
      [ addrLabel ins.ip ++ " ;; OP_NOT"
      , "    pop rax", "    not rax", "    push rax" ]
  | .OP_EQ => some
      [ addrLabel ins.ip ++ " ;; OP_EQ"
      , "    mov rcx, 0", "    mov rdx, 1", "    pop rax", "    pop rbx"
      , "    cmp rax, rbx", "    cmove rcx, rdx", "    push rcx" ]
  | .OP_NE => some
      [ addrLabel ins.ip ++ " ;; OP_NE"
      , "    mov rcx, 0", "    mov rdx, 1", "    pop rax", "    pop rbx"
      , "    cmp rax, rbx", "    cmovne rcx, rdx", "    push rcx" ]
  | .OP_GT => some
      [ addrLabel ins.ip ++ " ;; OP_GT"
      , "    mov rcx, 0", "    mov rdx, 1", "    pop rbx", "    pop rax"
      , "    cmp rax, rbx", "    cmovg rcx, rdx", "    push rcx" ]
  | .OP_GE => some
      [ addrLabel ins.ip ++ " ;; OP_GE"
      , "    mov rcx, 0", "    mov rdx, 1", "    pop rbx", "    pop rax"
      , "    cmp rax, rbx", "    cmovge rcx, rdx", "    push rcx" ]
  | .OP_LT => some
      [ addrLabel ins.ip ++ " ;; OP_LT"
      , "    mov rcx, 0", "    mov rdx, 1", "    pop rbx", "    pop rax"
      , "    cmp rax, rbx", "    cmovl rcx, rdx", "    push rcx" ]
  | .OP_LE => some
      [ addrLabel ins.ip ++ " ;; OP_LE"
      , "    mov rcx, 0", "    mov rdx, 1", "    pop rbx", "    pop rax"
      , "    cmp rax, rbx", "    cmovle rcx, rdx", "    push rcx" ]
  | .OP_DUP => some
      [ addrLabel ins.ip ++ " ;; OP_DUP"
      , "    pop rax", "    push rax", "    push rax" ]
  | .OP_DUMP => some
      [ addrLabel ins.ip ++ " ;; OP_DUMP"
      , "    pop rdi", "    call dump" ]
  | .OP_IF =>
    match ins.operands[0]? with
    | none => none
    | some tgt => some
      [ addrLabel ins.ip ++ " ;; OP_IF"
      , "    pop rax", "    test rax, rax"
      , "    jz .addr_" ++ toString (tgt + 1) ]
  | .OP_ELSE =>
    match ins.operands[0]? with
    | none => none
    | some tgt => some
      [ addrLabel ins.ip ++ " ;; OP_ELSE"
      , "    jmp .addr_" ++ toString (tgt + 1) ]
  | .OP_END =>
    if ins.operands.length = 0 then some []
    else
      match ins.operands[0]? with
      | none => none
      | some tgt => some
        [ addrLabel ins.ip ++ " ;; OP_END"
        , "    jmp .addr_" ++ toString tgt ]
  | .OP_WHILE => some
      [ addrLabel ins.ip ++ " ;; OP_WHILE" ]
  | .OP_DO =>
    match ins.operands[0]? with
    | none => none
    | some tgt => some
      [ addrLabel ins.ip ++ " ;; OP_DO"
      , "    pop rax", "    test rax, rax"
      , "    jz .addr_" ++ toString (tgt + 1) ]

/-- Emission of the whole instruction loop. -/
def emitAll : List Instruction → Option (List String)
  | [] => some []
  | ins :: rest =>
    match emitIns ins, emitAll rest with
    | some a, some b => some (a ++ b)
    | _, _ => none

/-- `fn codegen` (src/main.rs:474): the full `<base>.asm` text as a list of
lines; `none` models a Rust panic on a malformed instruction. -/
def codegen (program : List Instruction) : Option (List String) :=
  (emitAll program).map (fun body => preludeLines ++ body ++ epilogueLines)

/-- `pat` is a leading substring of `s` (character-by-character). -/
def leadsWith : List Char → List Char → Bool
  | [], _ => true
  | _ :: _, [] => false
  | a :: xs, b :: ys => a == b && leadsWith xs ys

/-- Some emitted line carries the `.addr_{ip}:` label. -/
def hasAddrLabel (lines : List String) (ip : Nat) : Bool :=
  lines.any (fun l => leadsWith (addrLabel ip).data l.data)

/-! ## Balanced control blocks

Grammar of token sequences whose control tokens nest as `if … end`,
`if … else … end` and `while … do … end` blocks; the flag is `false` inside
the condition and body of a `while` (no nested `while` blocks, per the
source's documented limitation).  `A` constrains the non-control tokens. -/

inductive Bal (A : List Char → Bool) : Bool → List Token → Prop where
  | nil : Bal A b []
  | atom (t : Token) (w : List Token) :
      A t.tok = true → Bal A b w → Bal A b (t :: w)
  | iend (t₁ t₂ : Token) (u w : List Token) :
      t₁.tok = "if".data → t₂.tok = "end".data →
      Bal A b u → Bal A b w → Bal A b (t₁ :: (u ++ t₂ :: w))
  | ielse (t₁ t₂ t₃ : Token) (u v w : List Token) :
      t₁.tok = "if".data → t₂.tok = "else".data → t₃.tok = "end".data →
      Bal A b u → Bal A b v → Bal A b w →
      Bal A b (t₁ :: (u ++ t₂ :: (v ++ t₃ :: w)))
  | wdo (t₁ t₂ t₃ : Token) (u v w : List Token) :
      t₁.tok = "while".data → t₂.tok = "do".data → t₃.tok = "end".data →
      Bal A false u → Bal A false v → Bal A true w →
      Bal A true (t₁ :: (u ++ t₂ :: (v ++ t₃ :: w)))

/-- A token that is not one of the five control keywords (the balance
condition claimed for the parser: only control tokens constrained). -/
def nonCtrl (s : List Char) : Bool :=
  !(s ∈ ["if".data, "else".data, "end".data, "while".data, "do".data])

/-- A token the parser accepts without consulting the cross-reference stack:
one of the thirteen operator words, or a valid 64-bit integer literal. -/
def isValidAtom (s : List Char) : Bool :=
  s ∈ ["+".data, "-".data, "*".data, "/".data, "!".data, "=".data,
       "!=".data, ">".data, ">=".data, "<".data, "<=".data, ".".data,
       "dup".data] || (parseI64 s).isSome

/-- Operand-count invariant of a single parsed instruction: PUSH and DO carry
exactly one operand, IF/ELSE/END at most one (zero until their closer is
seen), all other opcodes none. -/
def opcount (ins : Instruction) : Prop :=
  match ins.opcode with
  | .OP_PUSH => ins.operands.length = 1
  | .OP_DO => ins.operands.length = 1
  | .OP_IF => ins.operands.length ≤ 1
  | .OP_ELSE => ins.operands.length ≤ 1
  | .OP_END => ins.operands.length ≤ 1
  | _ => ins.operands = []

/-- Induction invariant of the parser loop after consuming `c` tokens:
the program has at most `c` instructions (exactly `c` unless a `do` was
skipped); all instructions satisfy `opcount`; the cross-reference stack is
strictly decreasing (top first), bounded by `c`, and IF/ELSE instructions
still referenced by it have no operands yet; and if no token was skipped,
instruction `ip`s coincide with program positions. -/
def Inv (c : Nat) (st : PState) : Prop :=
  st.program.length ≤ c ∧
  (∀ (p : Nat) (i : Instruction), st.program[p]? = some i → opcount i) ∧
  st.crossref.Pairwise (· > ·) ∧
  (∀ v ∈ st.crossref, v < c) ∧
  (∀ v ∈ st.crossref, ∀ i : Instruction, st.program[v]? = some i →
      (i.opcode = .OP_IF ∨ i.opcode = .OP_ELSE) → i.operands = []) ∧
  (st.program.length = c →
    ∀ (p : Nat) (i : Instruction), st.program[p]? = some i → i.ip = p)

/-! ## Theorems -/

/-- C4: lexing, parsing and interpreting
`10 while dup 0 > do dup . 1 - end 420 .` terminates (200 loop iterations of
fuel suffice) and writes exactly the bytes
`10\n9\n8\n7\n6\n5\n4\n3\n2\n1\n420\n` to the output sink. -/
theorem c4_while_countdown_output :
    runSource "10 while dup 0 > do dup . 1 - end 420 .".data 200 =
      some (.done "10\n9\n8\n7\n6\n5\n4\n3\n2\n1\n420\n") := by rfl

/-- C5: lexing, parsing and interpreting
`1 if 42 . end  0 if 7 . else 42 . end` writes exactly the bytes `42\n42\n`:
the true branch of the first conditional runs, and for the second the then
branch is skipped and the else branch runs. -/
theorem c5_if_else_output :
    runSource "1 if 42 . end  0 if 7 . else 42 . end".data 100 =
      some (.done "42\n42\n") := by rfl

/-- C2 (code bug): contrary to the claim, a token sequence whose first token
is `do` is NOT a fatal parse error: the `do` branch's `if let` has no `else`
arm for an empty cross-reference stack, so the token is silently dropped and
the parser returns a (here empty) program instead of aborting. -/
theorem c2_do_without_while_is_accepted :
    parser "f".data [⟨"do".data, 0, 0⟩] = .ok [] := by rfl

/-- C1 (counterexample): the claim fails as stated.  On the accepted token
sequence `do 1` the skipped `do` shifts positions: the instruction stored at
position 0 of the returned program has `ip = 1`, not 0. -/
theorem c1_counterexample :
    ¬ (∀ prog, parser "f".data [⟨"do".data, 0, 0⟩, ⟨"1".data, 0, 1⟩] =
          .ok prog →
        ∀ (i : Nat) (ins : Instruction), prog[i]? = some ins → ins.ip = i) := by
  intro h
  have h1 := h [⟨.OP_PUSH, [1], 1⟩] (by rfl) 0 ⟨.OP_PUSH, [1], 1⟩ (by rfl)
  simp at h1

/-- C3 (counterexample): the claim fails as stated.  The parser accepts the
single-token sequence `if` (no unclosed-opener check), and the resulting IF
instruction has zero operands, not exactly one. -/
theorem c3_counterexample :
    ¬ (∀ prog, parser "f".data [⟨"if".data, 0, 0⟩] = .ok prog →
        ∀ ins ∈ prog, ins.opcode = .OP_IF → ins.operands.length = 1) := by
  intro h
  have h1 := h [⟨.OP_IF, [], 0⟩] (by rfl) ⟨.OP_IF, [], 0⟩ (by simp) rfl
  simp at h1

/-- C6: executing NOT with top-of-stack `a` pushes `1 - a` and continues at
the next instruction when `a` is 0 or 1, and aborts with the non-boolean
diagnostic (pushing nothing) for every other value. -/
theorem c6_not_boolean_semantics (prog : List Instruction) (s : InterpState)
    (a : Int) (rest : List Int) (ops : List Int) (tokIp : Nat)
    (hstk : s.stack = a :: rest)
    (hins : prog[s.ip]? = some ⟨.OP_NOT, ops, tokIp⟩) :
    ((a = 0 ∨ a = 1) →
      interpStep prog s = .next ⟨(1 - a) :: rest, s.ip + 1, s.out⟩) ∧
    (¬(a = 0 ∨ a = 1) → interpStep prog s = .fail (.notBoolean s.ip a)) := by
  constructor
  · rintro (rfl | rfl) <;> simp [interpStep, hins, hstk]
  · intro h
    push_neg at h
    simp [interpStep, hins, hstk, h.1, h.2]

/-- Witness for C6 at concrete inputs: `NOT` on stack `[0]` yields `[1]`, and
`NOT` on stack `[5]` is the non-boolean runtime error. -/
theorem c6_witness :
    interpStep [⟨.OP_NOT, [], 0⟩] ⟨[0], 0, ""⟩ = .next ⟨[1], 1, ""⟩ ∧
    interpStep [⟨.OP_NOT, [], 0⟩] ⟨[5], 0, ""⟩ = .fail (.notBoolean 0 5) := by
  constructor
  · have h := (c6_not_boolean_semantics [⟨.OP_NOT, [], 0⟩] ⟨[0], 0, ""⟩ 0 [] [] 0
      rfl rfl).1 (Or.inl rfl)
    simpa using h
  · exact (c6_not_boolean_semantics [⟨.OP_NOT, [], 0⟩] ⟨[5], 0, ""⟩ 5 [] [] 0
      rfl rfl).2 (by decide)

/-- C7: interpreter ADD, SUB and MUL are 64-bit signed two's-complement
wrapping operations and never fail on a two-element stack: they pop `a` (top)
and `b` and push `wrap64` of `a+b`, `b-a`, `a*b` respectively. -/
theorem c7_wrapping_arithmetic (prog : List Instruction) (s : InterpState)
    (a b : Int) (rest : List Int) (hstk : s.stack = a :: b :: rest) :
    (∀ ops tokIp, prog[s.ip]? = some ⟨.OP_ADD, ops, tokIp⟩ →
      interpStep prog s = .next ⟨wrap64 (a + b) :: rest, s.ip + 1, s.out⟩) ∧
    (∀ ops tokIp, prog[s.ip]? = some ⟨.OP_SUB, ops, tokIp⟩ →
      interpStep prog s = .next ⟨wrap64 (b - a) :: rest, s.ip + 1, s.out⟩) ∧
    (∀ ops tokIp, prog[s.ip]? = some ⟨.OP_MUL, ops, tokIp⟩ →
      interpStep prog s = .next ⟨wrap64 (a * b) :: rest, s.ip + 1, s.out⟩) := by
  refine ⟨?_, ?_, ?_⟩ <;> intro ops tokIp hins <;> simp [interpStep, hins, hstk]

/-- Witness for C7 at the claim's concrete input: ADD on stack values
9223372036854775807 (i64 max) and 1 pushes -9223372036854775808 (i64 min)
instead of erroring. -/
theorem c7_witness :
    interpStep [⟨.OP_ADD, [], 0⟩] ⟨[9223372036854775807, 1], 0, ""⟩ =
      .next ⟨[-9223372036854775808], 1, ""⟩ := by
  have h := (c7_wrapping_arithmetic [⟨.OP_ADD, [], 0⟩]
    ⟨[9223372036854775807, 1], 0, ""⟩ 9223372036854775807 1 [] rfl).1 [] 0 rfl
  rw [h]
  decide

/-- C8 (counterexample): the claim fails as stated.  `1 if 42 . end` parses
to a resolved program whose END instruction (ip 4) has no operands; codegen
succeeds on it but its assembly contains no `.addr_4:` label, because the
END arm `continue`s without emitting anything. -/
theorem c8_counterexample :
    parser "f".data (lexer "1 if 42 . end".data) =
      .ok [⟨.OP_PUSH, [1], 0⟩, ⟨.OP_IF, [4], 1⟩, ⟨.OP_PUSH, [42], 2⟩,
           ⟨.OP_DUMP, [], 3⟩, ⟨.OP_END, [], 4⟩] ∧
    (codegen [⟨.OP_PUSH, [1], 0⟩, ⟨.OP_IF, [4], 1⟩, ⟨.OP_PUSH, [42], 2⟩,
              ⟨.OP_DUMP, [], 3⟩, ⟨.OP_END, [], 4⟩]).map
        (fun lines => hasAddrLabel lines 4) = some false := by
  exact ⟨by rfl, by rfl⟩

theorem str_data_append (x y : String) : (x ++ y).data = x.data ++ y.data := by
  cases x; cases y; rfl

theorem leadsWith_self_append (p q : List Char) :
    leadsWith p (p ++ q) = true := by
  induction p with
  | nil => rfl
  | cons a xs ih => simp [leadsWith, ih]

/-- Every successful per-instruction emission other than a no-operand END
begins with the instruction's `.addr_{ip}:` label line. -/
theorem emitIns_label (ins : Instruction) (l : List String)
    (hns : ¬(ins.opcode = .OP_END ∧ ins.operands = []))
    (h : emitIns ins = some l) :
    ∃ s t, l = (addrLabel ins.ip ++ s) :: t := by
  cases hop : ins.opcode <;> rw [emitIns, hop] at h
  case OP_PUSH =>
    rcases ho : ins.operands[0]? with _ | v <;> rw [ho] at h
    · cases h
    · exact ⟨_, _, (Option.some_injective _ h).symm⟩
  case OP_IF =>
    rcases ho : ins.operands[0]? with _ | v <;> rw [ho] at h
    · cases h
    · exact ⟨_, _, (Option.some_injective _ h).symm⟩
  case OP_ELSE =>
    rcases ho : ins.operands[0]? with _ | v <;> rw [ho] at h
    · cases h
    · exact ⟨_, _, (Option.some_injective _ h).symm⟩
  case OP_DO =>
    rcases ho : ins.operands[0]? with _ | v <;> rw [ho] at h
    · cases h
    · exact ⟨_, _, (Option.some_injective _ h).symm⟩
  case OP_END =>
    have hne : ins.operands ≠ [] := fun hc => hns ⟨hop, hc⟩
    rcases hops : ins.operands with _ | ⟨v, vs⟩
    · exact absurd hops hne
    · rw [hops] at h
      simp only [List.length_cons] at h
      rw [if_neg (by omega)] at h
      simp only [List.getElem?_cons_zero] at h
      exact ⟨_, _, (Option.some_injective _ h).symm⟩
  all_goals exact ⟨_, _, (Option.some_injective _ h).symm⟩

/-- The lines emitted for a member instruction all appear in the emitted
body. -/
theorem emitAll_mem (prog : List Instruction) (body : List String)
    (h : emitAll prog = some body) (ins : Instruction) (hmem : ins ∈ prog) :
    ∃ li, emitIns ins = some li ∧ ∀ x ∈ li, x ∈ body := by
  induction prog generalizing body with
  | nil => cases hmem
  | cons a rest ih =>
    rcases ha : emitIns a with _ | la <;> rcases hr : emitAll rest with _ | lb <;>
      rw [emitAll, ha, hr] at h <;> try cases h
    rcases List.mem_cons.1 hmem with rfl | hmem'
    · exact ⟨la, ha, fun x hx => List.mem_append.2 (Or.inl hx)⟩
    · obtain ⟨li, h1, h2⟩ := ih lb hr hmem'
      exact ⟨li, h1, fun x hx => List.mem_append.2 (Or.inr (h2 x hx))⟩

/-- C8 (amended): for every resolved program on which codegen succeeds, the
assembly text contains the local label `.addr_{ip}:` for every instruction
EXCEPT an END with no operands, which emits nothing at all. -/
theorem c8_amended (prog : List Instruction) (lines : List String)
    (h : codegen prog = some lines) :
    ∀ ins ∈ prog, ¬(ins.opcode = .OP_END ∧ ins.operands = []) →
      hasAddrLabel lines ins.ip = true := by
  intro ins hmem hns
  rcases he : emitAll prog with _ | body <;> rw [codegen, he] at h
  · cases h
  · simp only [Option.map_some'] at h
    have h' := Option.some_injective _ h
    obtain ⟨li, h1, h2⟩ := emitAll_mem prog body he ins hmem
    obtain ⟨s, t, rfl⟩ := emitIns_label ins li hns h1
    have hx : (addrLabel ins.ip ++ s) ∈ lines := by
      rw [← h']
      exact List.mem_append.2 (Or.inl (List.mem_append.2
        (Or.inr (h2 _ (List.mem_cons_self _ _)))))
    rw [hasAddrLabel, List.any_eq_true]
    refine ⟨_, hx, ?_⟩
    rw [str_data_append]
    exact leadsWith_self_append _ _

/-- Witness for C8 (amended) at a concrete program: a single PUSH gets its
`.addr_0:` label. -/
theorem c8_witness :
    (codegen [⟨.OP_PUSH, [7], 0⟩]).map (fun lines => hasAddrLabel lines 0) =
      some true := by
  rcases h : codegen [⟨.OP_PUSH, [7], 0⟩] with _ | lines
  · exact absurd h (by decide)
  · have hl := c8_amended _ lines h ⟨.OP_PUSH, [7], 0⟩ (by simp) (by simp)
    simpa using hl

/-! ## Parser invariants -/

@[simp] theorem pushOperand_opcode (v : Int) (i : Instruction) :
    (pushOperand v i).opcode = i.opcode := rfl

@[simp] theorem pushOperand_ip (v : Int) (i : Instruction) :
    (pushOperand v i).ip = i.ip := rfl

theorem pushOperand_operands (v : Int) (i : Instruction) :
    (pushOperand v i).operands = i.operands ++ [v] := rfl

@[simp] theorem popOperand_opcode (i : Instruction) :
    (popOperand i).opcode = i.opcode := rfl

@[simp] theorem popOperand_ip (i : Instruction) :
    (popOperand i).ip = i.ip := rfl

@[simp] theorem length_modifyAt {α : Type} (l : List α) (n : Nat) (f : α → α) :
    (modifyAt l n f).length = l.length := by
  induction l generalizing n with
  | nil => rfl
  | cons a l ih =>
    cases n with
    | zero => rfl
    | succ m => simp [modifyAt, ih]

theorem getElem?_modifyAt {α : Type} (l : List α) (n m : Nat) (f : α → α) :
    (modifyAt l n f)[m]? = if m = n then (l[m]?).map f else l[m]? := by
  induction l generalizing n m with
  | nil => simp [modifyAt]
  | cons a l ih =>
    cases n with
    | zero =>
      cases m with
      | zero => simp [modifyAt]
      | succ k => simp [modifyAt]
    | succ n' =>
      cases m with
      | zero => simp [modifyAt]
      | succ k => simpa [modifyAt, Nat.succ_eq_add_one] using ih n' k

theorem singleton_getElem? {α : Type} {a x : α} {n : Nat}
    (h : ([a] : List α)[n]? = some x) : n = 0 ∧ x = a := by
  cases n with
  | zero =>
    simp only [List.getElem?_cons_zero, Option.some.injEq] at h
    exact ⟨rfl, h.symm⟩
  | succ m => simp at h

theorem append_getElem?_last {α : Type} {l : List α} {a x : α} {c : Nat}
    (hle : l.length ≤ c) (h : (l ++ [a])[c]? = some x) :
    l.length = c ∧ x = a := by
  rw [List.getElem?_append_right hle] at h
  obtain ⟨h0, hx⟩ := singleton_getElem? h
  exact ⟨by omega, hx⟩

theorem extend_facts (c : Nat) (st : PState) (h : Inv c st)
    (nins : Instruction) (hip : nins.ip = c) (hoc : opcount nins)
    (hie : (nins.opcode = .OP_IF ∨ nins.opcode = .OP_ELSE) →
      nins.operands = []) :
    (∀ (p : Nat) (i : Instruction),
        (st.program ++ [nins])[p]? = some i → opcount i) ∧
    (∀ v ∈ st.crossref, ∀ i : Instruction,
        (st.program ++ [nins])[v]? = some i →
        (i.opcode = .OP_IF ∨ i.opcode = .OP_ELSE) → i.operands = []) ∧
    (st.program.length + 1 = c + 1 →
      ∀ (p : Nat) (i : Instruction),
        (st.program ++ [nins])[p]? = some i → i.ip = p) := by
  obtain ⟨h1, h2, h3, h4, h5, h6⟩ := h
  refine ⟨?_, ?_, ?_⟩
  · intro p i hp
    rcases Nat.lt_or_ge p st.program.length with hlt | hge
    · rw [List.getElem?_append_left hlt] at hp
      exact h2 p i hp
    · obtain ⟨_, rfl⟩ := append_getElem?_last hge hp
      exact hoc
  · intro v hv i hp hop
    rcases Nat.lt_or_ge v st.program.length with hlt | hge
    · rw [List.getElem?_append_left hlt] at hp
      exact h5 v hv i hp hop
    · obtain ⟨_, rfl⟩ := append_getElem?_last hge hp
      exact hie hop
  · intro hlen p i hp
    have hl : st.program.length = c := by omega
    rcases Nat.lt_or_ge p st.program.length with hlt | hge
    · rw [List.getElem?_append_left hlt] at hp
      exact h6 hl p i hp
    · obtain ⟨hp0, rfl⟩ := append_getElem?_last hge hp
      rw [hip]; omega

theorem inv_append (c : Nat) (st : PState) (h : Inv c st)
    (nins : Instruction) (hip : nins.ip = c) (hoc : opcount nins)
    (hie : (nins.opcode = .OP_IF ∨ nins.opcode = .OP_ELSE) →
      nins.operands = []) :
    Inv (c+1) ⟨st.program ++ [nins], st.crossref⟩ := by
  obtain ⟨e2, e5, e6⟩ := extend_facts c st h nins hip hoc hie
  obtain ⟨h1, h2, h3, h4, h5, h6⟩ := h
  refine ⟨by simp; omega, e2, h3,
    fun v hv => Nat.lt_succ_of_lt (h4 v hv), e5, ?_⟩
  intro hlen
  exact e6 (by simpa using hlen)

theorem inv_open (c : Nat) (st : PState) (h : Inv c st)
    (nins : Instruction) (hip : nins.ip = c) (hoc : opcount nins)
    (hie : (nins.opcode = .OP_IF ∨ nins.opcode = .OP_ELSE) →
      nins.operands = []) :
    Inv (c+1) ⟨st.program ++ [nins], c :: st.crossref⟩ := by
  obtain ⟨e2, e5, e6⟩ := extend_facts c st h nins hip hoc hie
  obtain ⟨h1, h2, h3, h4, h5, h6⟩ := h
  refine ⟨by simp; omega, e2, ?_, ?_, ?_, ?_⟩
  · exact List.pairwise_cons.2 ⟨fun v hv => h4 v hv, h3⟩
  · intro v hv
    rcases List.mem_cons.1 hv with rfl | hv'
    · omega
    · exact Nat.lt_succ_of_lt (h4 v hv')
  · intro v hv i hp hop
    rcases List.mem_cons.1 hv with rfl | hv'
    · rcases Nat.lt_or_ge v st.program.length with hlt | hge
      · exact absurd hlt (by omega)
      · obtain ⟨_, rfl⟩ := append_getElem?_last hge hp
        exact hie hop
    · exact e5 v hv' i hp hop
  · intro hlen
    exact e6 (by simpa using hlen)

theorem inv_skip (c : Nat) (st : PState) (h : Inv c st) : Inv (c+1) st := by
  obtain ⟨h1, h2, h3, h4, h5, h6⟩ := h
  exact ⟨by omega, h2, h3, fun v hv => Nat.lt_succ_of_lt (h4 v hv), h5,
    fun hlen => absurd hlen (by omega)⟩

theorem inv_else (c : Nat) (st : PState) (h : Inv c st)
    (ifIp : Nat) (rest : List Nat) (hcr : st.crossref = ifIp :: rest)
    (ins : Instruction)
    (hins : (st.program ++ [(⟨.OP_ELSE, [], c⟩ : Instruction)])[ifIp]? =
      some ins)
    (hIF : ins.opcode = .OP_IF) :
    Inv (c+1) ⟨modifyAt (st.program ++ [⟨.OP_ELSE, [], c⟩]) ifIp
        (pushOperand (c : Int)), c :: rest⟩ := by
  obtain ⟨e2, e5, e6⟩ :=
    extend_facts c st h ⟨.OP_ELSE, [], c⟩ rfl (by simp [opcount]) (fun _ => rfl)
  obtain ⟨h1, h2, h3, h4, h5, h6⟩ := h
  rw [hcr] at h3
  have hmemIf : ifIp ∈ st.crossref := by rw [hcr]; exact List.mem_cons_self _ _
  have hbd : ifIp < c := h4 _ hmemIf
  have hlt : ifIp < st.program.length := by
    rcases Nat.lt_or_ge ifIp st.program.length with hlt | hge
    · exact hlt
    · obtain ⟨_, rfl⟩ := append_getElem?_last hge hins
      cases hIF
  have hins0 : st.program[ifIp]? = some ins := by
    rw [List.getElem?_append_left hlt] at hins
    exact hins
  have hemp : ins.operands = [] := h5 _ hmemIf _ hins0 (Or.inl hIF)
  refine ⟨by simp; omega, ?_, ?_, ?_, ?_, ?_⟩
  · intro p i hp
    rw [getElem?_modifyAt] at hp
    by_cases hpe : p = ifIp
    · rw [if_pos hpe, hpe, hins] at hp
      simp only [Option.map_some', Option.some.injEq] at hp
      subst hp
      simp [opcount, pushOperand, hIF, hemp]
    · rw [if_neg hpe] at hp
      exact e2 p i hp
  · refine List.pairwise_cons.2 ⟨?_, h3.of_cons⟩
    intro v hv
    exact h4 v (by rw [hcr]; exact List.mem_cons_of_mem _ hv)
  · intro v hv
    rcases List.mem_cons.1 hv with rfl | hv'
    · omega
    · exact Nat.lt_succ_of_lt (h4 v (by rw [hcr]; exact List.mem_cons_of_mem _ hv'))
  · intro v hv i hp hop
    rw [getElem?_modifyAt] at hp
    rcases List.mem_cons.1 hv with rfl | hv'
    · rw [if_neg (by omega)] at hp
      rcases Nat.lt_or_ge v st.program.length with hlt2 | hge2
      · exact absurd hlt2 (by omega)
      · obtain ⟨_, rfl⟩ := append_getElem?_last hge2 hp
        rfl
    · have hgt : ifIp > v := List.rel_of_pairwise_cons h3 hv'
      rw [if_neg (by omega)] at hp
      exact e5 v (by rw [hcr]; exact List.mem_cons_of_mem _ hv') i hp hop
  · intro hlen p i hp
    rw [length_modifyAt] at hlen
    have he6 := e6 (by simpa using hlen)
    rw [getElem?_modifyAt] at hp
    by_cases hpe : p = ifIp
    · rw [if_pos hpe, hpe, hins] at hp
      simp only [Option.map_some', Option.some.injEq] at hp
      subst hp
      rw [pushOperand_ip, hpe]
      exact he6 ifIp ins hins
    · rw [if_neg hpe] at hp
      exact he6 p i hp

theorem inv_while (c : Nat) (st : PState) (h : Inv c st) (ins : Instruction)
    (hins : (st.program ++ [(⟨.OP_WHILE, [], c⟩ : Instruction)])[c]? =
      some ins) :
    Inv (c+1) ⟨st.program ++ [⟨.OP_WHILE, [], c⟩], ins.ip :: st.crossref⟩ := by
  obtain ⟨hl, rfl⟩ := append_getElem?_last h.1 hins
  exact inv_open c st h ⟨.OP_WHILE, [], c⟩ rfl (by simp [opcount]) (fun _ => rfl)

theorem inv_do (c : Nat) (st : PState) (h : Inv c st)
    (w : Nat) (rest : List Nat) (hcr : st.crossref = w :: rest)
    (insc : Instruction)
    (hc : (st.program ++ [(⟨.OP_DO, [], c⟩ : Instruction)])[c]? = some insc) :
    Inv (c+1) ⟨modifyAt (st.program ++ [⟨.OP_DO, [], c⟩]) c
        (pushOperand (w : Int)), insc.ip :: rest⟩ := by
  obtain ⟨hl, hinsc⟩ := append_getElem?_last h.1 hc
  have hip : insc.ip = c := by rw [hinsc]
  have hopc : insc.opcode = .OP_DO := by rw [hinsc]
  have hops : insc.operands = [] := by rw [hinsc]
  rw [hip]
  obtain ⟨h1, h2, h3, h4, h5, h6⟩ := h
  rw [hcr] at h3
  refine ⟨by simp; omega, ?_, ?_, ?_, ?_, ?_⟩
  · intro p i hp
    rw [getElem?_modifyAt] at hp
    by_cases hpe : p = c
    · rw [if_pos hpe, hpe, hc] at hp
      simp only [Option.map_some', Option.some.injEq] at hp
      subst hp
      simp [opcount, pushOperand, hopc, hops]
    · rw [if_neg hpe] at hp
      rcases Nat.lt_or_ge p st.program.length with hlt | hge
      · rw [List.getElem?_append_left hlt] at hp
        exact h2 p i hp
      · obtain ⟨hpl, rfl⟩ := append_getElem?_last hge hp
        exact absurd rfl (by omega : ¬ p = p)
  · refine List.pairwise_cons.2 ⟨?_, h3.of_cons⟩
    intro v hv
    exact h4 v (by rw [hcr]; exact List.mem_cons_of_mem _ hv)
  · intro v hv
    rcases List.mem_cons.1 hv with hve | hv'
    · omega
    · exact Nat.lt_succ_of_lt (h4 v (by rw [hcr]; exact List.mem_cons_of_mem _ hv'))
  · intro v hv i hp hop
    rw [getElem?_modifyAt] at hp
    rcases List.mem_cons.1 hv with hve | hv'
    · rw [if_pos hve, hve, hc] at hp
      simp only [Option.map_some', Option.some.injEq] at hp
      subst hp
      rcases hop with hx | hx <;>
        rw [pushOperand_opcode, hopc] at hx <;> cases hx
    · have hvc : v < c := h4 v (by rw [hcr]; exact List.mem_cons_of_mem _ hv')
      rw [if_neg (by omega)] at hp
      have hvl : v < st.program.length := by omega
      rw [List.getElem?_append_left hvl] at hp
      exact h5 v (by rw [hcr]; exact List.mem_cons_of_mem _ hv') i hp hop
  · intro hlen p i hp
    rw [getElem?_modifyAt] at hp
    by_cases hpe : p = c
    · rw [if_pos hpe, hpe, hc] at hp
      simp only [Option.map_some', Option.some.injEq] at hp
      subst hp
      rw [pushOperand_ip, hip, hpe]
    · rw [if_neg hpe] at hp
      rcases Nat.lt_or_ge p st.program.length with hlt | hge
      · rw [List.getElem?_append_left hlt] at hp
        exact h6 hl p i hp
      · obtain ⟨hpl, rfl⟩ := append_getElem?_last hge hp
        exact absurd rfl (by omega : ¬ p = p)

theorem inv_end_ie (c : Nat) (st : PState) (h : Inv c st)
    (prevIp : Nat) (rest : List Nat) (hcr : st.crossref = prevIp :: rest)
    (pins : Instruction)
    (hp : (st.program ++ [(⟨.OP_END, [], c⟩ : Instruction)])[prevIp]? =
      some pins)
    (hie : pins.opcode = .OP_IF ∨ pins.opcode = .OP_ELSE) :
    Inv (c+1) ⟨modifyAt (st.program ++ [⟨.OP_END, [], c⟩]) prevIp
        (pushOperand (c : Int)), rest⟩ := by
  obtain ⟨e2, e5, e6⟩ :=
    extend_facts c st h ⟨.OP_END, [], c⟩ rfl (by simp [opcount]) (fun _ => rfl)
  obtain ⟨h1, h2, h3, h4, h5, h6⟩ := h
  rw [hcr] at h3
  have hmemP : prevIp ∈ st.crossref := by
    rw [hcr]; exact List.mem_cons_self _ _
  have hbd : prevIp < c := h4 _ hmemP
  have hlt : prevIp < st.program.length := by
    rcases Nat.lt_or_ge prevIp st.program.length with hlt | hge
    · exact hlt
    · obtain ⟨_, rfl⟩ := append_getElem?_last hge hp
      rcases hie with hx | hx <;> cases hx
  have hp0 : st.program[prevIp]? = some pins := by
    rw [List.getElem?_append_left hlt] at hp
    exact hp
  have hemp : pins.operands = [] := h5 _ hmemP _ hp0 hie
  refine ⟨by simp; omega, ?_, h3.of_cons, ?_, ?_, ?_⟩
  · intro p i hpx
    rw [getElem?_modifyAt] at hpx
    by_cases hpe : p = prevIp
    · rw [if_pos hpe, hpe, hp] at hpx
      simp only [Option.map_some', Option.some.injEq] at hpx
      subst hpx
      rcases hie with hx | hx <;> simp [opcount, pushOperand, hx, hemp]
    · rw [if_neg hpe] at hpx
      exact e2 p i hpx
  · intro v hv
    exact Nat.lt_succ_of_lt (h4 v (by rw [hcr]; exact List.mem_cons_of_mem _ hv))
  · intro v hv i hpx hop
    have hgt : prevIp > v := List.rel_of_pairwise_cons h3 hv
    rw [getElem?_modifyAt, if_neg (by omega)] at hpx
    exact e5 v (by rw [hcr]; exact List.mem_cons_of_mem _ hv) i hpx hop
  · intro hlen p i hpx
    rw [length_modifyAt] at hlen
    have he6 := e6 (by simpa using hlen)
    rw [getElem?_modifyAt] at hpx
    by_cases hpe : p = prevIp
    · rw [if_pos hpe, hpe, hp] at hpx
      simp only [Option.map_some', Option.some.injEq] at hpx
      subst hpx
      rw [pushOperand_ip, hpe]
      exact he6 prevIp pins hp
    · rw [if_neg hpe] at hpx
      exact he6 p i hpx

theorem inv_end_other (c : Nat) (st : PState) (h : Inv c st)
    (prevIp : Nat) (rest : List Nat) (hcr : st.crossref = prevIp :: rest) :
    Inv (c+1) ⟨st.program ++ [⟨.OP_END, [], c⟩], rest⟩ := by
  obtain ⟨e2, e5, e6⟩ :=
    extend_facts c st h ⟨.OP_END, [], c⟩ rfl (by simp [opcount]) (fun _ => rfl)
  obtain ⟨h1, h2, h3, h4, h5, h6⟩ := h
  rw [hcr] at h3
  refine ⟨by simp; omega, e2, h3.of_cons, ?_, ?_, ?_⟩
  · intro v hv
    exact Nat.lt_succ_of_lt (h4 v (by rw [hcr]; exact List.mem_cons_of_mem _ hv))
  · intro v hv i hpx hop
    exact e5 v (by rw [hcr]; exact List.mem_cons_of_mem _ hv) i hpx hop
  · intro hlen
    exact e6 (by simpa using hlen)

theorem inv_end_do (c : Nat) (st : PState) (h : Inv c st)
    (prevIp : Nat) (rest : List Nat) (hcr : st.crossref = prevIp :: rest)
    (pins : Instruction)
    (hp : (st.program ++ [(⟨.OP_END, [], c⟩ : Instruction)])[prevIp]? =
      some pins)
    (hDO : pins.opcode = .OP_DO) (w : Int)
    (hw : pins.operands.getLast? = some w) (insc : Instruction)
    (hc : (modifyAt (st.program ++ [⟨.OP_END, [], c⟩]) prevIp
        popOperand)[c]? = some insc) :
    Inv (c+1) ⟨modifyAt (modifyAt (modifyAt (st.program ++ [⟨.OP_END, [], c⟩])
        prevIp popOperand) c (pushOperand w)) prevIp
        (pushOperand (c : Int)), rest⟩ := by
  obtain ⟨h1, h2, h3, h4, h5, h6⟩ := h
  rw [hcr] at h3
  have hmemP : prevIp ∈ st.crossref := by
    rw [hcr]; exact List.mem_cons_self _ _
  have hbd : prevIp < c := h4 _ hmemP
  have hlt : prevIp < st.program.length := by
    rcases Nat.lt_or_ge prevIp st.program.length with hlt | hge
    · exact hlt
    · obtain ⟨_, rfl⟩ := append_getElem?_last hge hp
      cases hDO
  have hp0 : st.program[prevIp]? = some pins := by
    rw [List.getElem?_append_left hlt] at hp
    exact hp
  have hoc : pins.operands.length = 1 := by
    have := h2 prevIp pins hp0
    rw [opcount, hDO] at this
    exact this
  -- the slot `c` holds the fresh END: the bounds check forces no prior skip
  have hlc : st.program.length = c := by
    have hlen2 : c < st.program.length + 1 := by
      by_contra hcon
      push_neg at hcon
      rw [List.getElem?_eq_none (by simpa using hcon)] at hc
      cases hc
    omega
  have hcend : (modifyAt (st.program ++ [(⟨.OP_END, [], c⟩ : Instruction)])
      prevIp popOperand)[c]? = some ⟨.OP_END, [], c⟩ := by
    rw [getElem?_modifyAt, if_neg (by omega), ← hlc,
      List.getElem?_concat_length]
  have hinsc : insc = ⟨.OP_END, [], c⟩ := by
    rw [hcend] at hc
    exact (Option.some_injective _ hc).symm
  -- describe the final program slots
  have hslot : ∀ (p : Nat) (i : Instruction),
      (modifyAt (modifyAt (modifyAt (st.program ++ [⟨.OP_END, [], c⟩])
        prevIp popOperand) c (pushOperand w)) prevIp
        (pushOperand (c : Int)))[p]? = some i →
      (p = prevIp ∧ i = pushOperand (c : Int) (popOperand pins)) ∨
      (p = c ∧ i = pushOperand w ⟨.OP_END, [], c⟩) ∨
      (p ≠ prevIp ∧ p ≠ c ∧ st.program[p]? = some i) := by
    intro p i hpx
    rw [getElem?_modifyAt] at hpx
    by_cases hpe : p = prevIp
    · left
      rw [if_pos hpe, getElem?_modifyAt, if_neg (by omega),
        getElem?_modifyAt, if_pos hpe, hpe, hp] at hpx
      simp only [Option.map_some', Option.some.injEq] at hpx
      exact ⟨hpe, hpx.symm⟩
    · rw [if_neg hpe, getElem?_modifyAt] at hpx
      by_cases hpc : p = c
      · right; left
        rw [if_pos hpc, hpc, hcend] at hpx
        simp only [Option.map_some', Option.some.injEq] at hpx
        exact ⟨hpc, hpx.symm⟩
      · right; right
        rw [if_neg hpc, getElem?_modifyAt, if_neg hpe] at hpx
        rcases Nat.lt_or_ge p st.program.length with hlt2 | hge2
        · rw [List.getElem?_append_left hlt2] at hpx
          exact ⟨hpe, hpc, hpx⟩
        · obtain ⟨hpl, rfl⟩ := append_getElem?_last hge2 hpx
          exact absurd rfl (by omega : ¬ p = p)
  refine ⟨by simp; omega, ?_, h3.of_cons, ?_, ?_, ?_⟩
  · intro p i hpx
    rcases hslot p i hpx with ⟨_, rfl⟩ | ⟨_, rfl⟩ | ⟨_, _, hpx0⟩
    · rw [opcount]
      simp only [pushOperand_opcode, popOperand_opcode, hDO]
      simp [pushOperand_operands, popOperand, List.length_dropLast, hoc]
    · rw [opcount]
      simp [pushOperand_operands]
    · exact h2 p i hpx0
  · intro v hv
    exact Nat.lt_succ_of_lt (h4 v (by rw [hcr]; exact List.mem_cons_of_mem _ hv))
  · intro v hv i hpx hop
    have hgt : prevIp > v := List.rel_of_pairwise_cons h3 hv
    rcases hslot v i hpx with ⟨hve, _⟩ | ⟨hve, _⟩ | ⟨_, _, hpx0⟩
    · omega
    · omega
    · exact h5 v (by rw [hcr]; exact List.mem_cons_of_mem _ hv) i hpx0 hop
  · intro hlen p i hpx
    rcases hslot p i hpx with ⟨rfl, rfl⟩ | ⟨rfl, rfl⟩ | ⟨_, _, hpx0⟩
    · rw [pushOperand_ip, popOperand_ip]
      exact h6 hlc p pins hp0
    · rw [pushOperand_ip]
    · exact h6 hlc p i hpx0

theorem parseStep_inv (f : List Char) (c : Nat) (t : Token) (st st' : PState)
    (h : Inv c st) (hstep : parseStep f c t st = .ok st') :
    Inv (c+1) st' := by
  unfold parseStep at hstep
  by_cases h01 : t.tok = "+".data
  · rw [if_pos h01] at hstep
    cases hstep
    exact inv_append c st h _ rfl (by simp [opcount]) (fun _ => rfl)
  rw [if_neg h01] at hstep
  by_cases h02 : t.tok = "-".data
  · rw [if_pos h02] at hstep
    cases hstep
    exact inv_append c st h _ rfl (by simp [opcount]) (fun _ => rfl)
  rw [if_neg h02] at hstep
  by_cases h03 : t.tok = "*".data
  · rw [if_pos h03] at hstep
    cases hstep
    exact inv_append c st h _ rfl (by simp [opcount]) (fun _ => rfl)
  rw [if_neg h03] at hstep
  by_cases h04 : t.tok = "/".data
  · rw [if_pos h04] at hstep
    cases hstep
    exact inv_append c st h _ rfl (by simp [opcount]) (fun _ => rfl)
  rw [if_neg h04] at hstep
  by_cases h05 : t.tok = "!".data
  · rw [if_pos h05] at hstep
    cases hstep
    exact inv_append c st h _ rfl (by simp [opcount]) (fun _ => rfl)
  rw [if_neg h05] at hstep
  by_cases h06 : t.tok = "=".data
  · rw [if_pos h06] at hstep
    cases hstep
    exact inv_append c st h _ rfl (by simp [opcount]) (fun _ => rfl)
  rw [if_neg h06] at hstep
  by_cases h07 : t.tok = "!=".data
  · rw [if_pos h07] at hstep
    cases hstep
    exact inv_append c st h _ rfl (by simp [opcount]) (fun _ => rfl)
  rw [if_neg h07] at hstep
  by_cases h08 : t.tok = ">".data
  · rw [if_pos h08] at hstep
    cases hstep
    exact inv_append c st h _ rfl (by simp [opcount]) (fun _ => rfl)
  rw [if_neg h08] at hstep
  by_cases h09 : t.tok = ">=".data
  · rw [if_pos h09] at hstep
    cases hstep
    exact inv_append c st h _ rfl (by simp [opcount]) (fun _ => rfl)
  rw [if_neg h09] at hstep
  by_cases h10 : t.tok = "<".data
  · rw [if_pos h10] at hstep
    cases hstep
    exact inv_append c st h _ rfl (by simp [opcount]) (fun _ => rfl)
  rw [if_neg h10] at hstep
  by_cases h11 : t.tok = "<=".data
  · rw [if_pos h11] at hstep
    cases hstep
    exact inv_append c st h _ rfl (by simp [opcount]) (fun _ => rfl)
  rw [if_neg h11] at hstep
  by_cases h12 : t.tok = ".".data
  · rw [if_pos h12] at hstep
    cases hstep
    exact inv_append c st h _ rfl (by simp [opcount]) (fun _ => rfl)
  rw [if_neg h12] at hstep
  by_cases h13 : t.tok = "dup".data
  · rw [if_pos h13] at hstep
    cases hstep
    exact inv_append c st h _ rfl (by simp [opcount]) (fun _ => rfl)
  rw [if_neg h13] at hstep
  by_cases h14 : t.tok = "if".data
  · rw [if_pos h14] at hstep
    cases hstep
    exact inv_open c st h _ rfl (by simp [opcount]) (fun _ => rfl)
  rw [if_neg h14] at hstep
  by_cases h15 : t.tok = "else".data
  · rw [if_pos h15] at hstep
    split at hstep
    · cases hstep
    next ifIp rest hcr =>
      split at hstep
      · cases hstep
      next ins hins =>
        split at hstep
        next hIF =>
          cases hstep
          exact inv_else c st h ifIp rest hcr ins hins hIF
        next hIF => cases hstep
  rw [if_neg h15] at hstep
  by_cases h16 : t.tok = "while".data
  · rw [if_pos h16] at hstep
    split at hstep
    · cases hstep
    next ins hins =>
      cases hstep
      exact inv_while c st h ins hins
  rw [if_neg h16] at hstep
  by_cases h17 : t.tok = "do".data
  · rw [if_pos h17] at hstep
    split at hstep
    next hcr =>
      cases hstep
      exact inv_skip c st h
    next whileIp rest hcr =>
      split at hstep
      · cases hstep
      next ins hins =>
        split at hstep
        next hW =>
          split at hstep
          · cases hstep
          next insc hinsc =>
            cases hstep
            exact inv_do c st h whileIp rest hcr insc hinsc
        next hW => cases hstep
  rw [if_neg h17] at hstep
  by_cases h18 : t.tok = "end".data
  · rw [if_pos h18] at hstep
    split at hstep
    · cases hstep
    next prevIp rest hcr =>
      split at hstep
      · cases hstep
      next pins hpins =>
        split at hstep
        next hie =>
          cases hstep
          exact inv_end_ie c st h prevIp rest hcr pins hpins hie
        next hie =>
          split at hstep
          next hWh => cases hstep
          next hWh =>
            split at hstep
            next hDO =>
              split at hstep
              · cases hstep
              next w hw =>
                split at hstep
                · cases hstep
                next insc hinsc =>
                  cases hstep
                  exact inv_end_do c st h prevIp rest hcr pins hpins hDO
                    w hw insc hinsc
            next hDO =>
              cases hstep
              exact inv_end_other c st h prevIp rest hcr
  rw [if_neg h18] at hstep
  split at hstep
  · cases hstep
  next v hv =>
    cases hstep
    exact inv_append c st h _ rfl (by simp [opcount])
      (by rintro (hx | hx) <;> cases hx)

theorem parseGo_inv (f : List Char) (ts : List Token) (c : Nat)
    (st st' : PState) (h : Inv c st) (hrun : parseGo f c ts st = .ok st') :
    Inv (c + ts.length) st' := by
  induction ts generalizing c st with
  | nil =>
    cases hrun
    simpa using h
  | cons t ts ih =>
    simp only [parseGo] at hrun
    rcases hs : parseStep f c t st with e | st1 <;> rw [hs] at hrun
    · cases hrun
    · have h1 := parseStep_inv f c t st st1 h hs
      have h2 := ih (c+1) st1 h1 hrun
      have harith : c + (t :: ts).length = (c+1) + ts.length := by
        simp [List.length_cons]; omega
      rw [harith]
      exact h2

theorem inv_init : Inv 0 ⟨[], []⟩ := by
  refine ⟨by simp, ?_, by simp, by simp, ?_, ?_⟩
  · intro p i hp
    simp at hp
  · intro v hv
    simp at hv
  · intro _ p i hp
    simp at hp

/-- C1 (amended): for every token sequence accepted by the parser, each
instruction's `ip` field equals the index of the token it came from; whenever
the parser emitted one instruction per token — in particular whenever no `do`
token was encountered with the cross-reference stack empty — the instruction
stored at position `i` of the program has `ip = i`. -/
theorem c1_amended (file : List Char) (tokens : List Token)
    (prog : List Instruction)
    (hok : parser file tokens = .ok prog)
    (hlen : prog.length = tokens.length) :
    ∀ (i : Nat) (ins : Instruction), prog[i]? = some ins → ins.ip = i := by
  rcases hgo : parseGo file 0 tokens ⟨[], []⟩ with e | st' <;>
    rw [parser, hgo] at hok
  · cases hok
  · simp only [Except.map] at hok
    cases hok
    have hinv := parseGo_inv file tokens 0 ⟨[], []⟩ st' inv_init hgo
    exact hinv.2.2.2.2.2 (by omega)

/-- Witness for C1 (amended): the single-token program `+` parses to one
instruction per token and its instruction at position 0 has `ip = 0`. -/
theorem c1_witness :
    parser "f".data [⟨"+".data, 0, 0⟩] = .ok [⟨.OP_ADD, [], 0⟩] ∧
    (⟨.OP_ADD, [], 0⟩ : Instruction).ip = 0 :=
  ⟨rfl, c1_amended "f".data [⟨"+".data, 0, 0⟩] [⟨.OP_ADD, [], 0⟩] rfl rfl
    0 ⟨.OP_ADD, [], 0⟩ rfl⟩

/-- C3 (amended): for every token sequence on which the parser returns a
program, every IF and ELSE instruction has at most one operand (zero exactly
when its block was never closed), every DO has exactly one operand, every END
has zero or one operand, and every PUSH has exactly one operand. -/
theorem c3_amended (file : List Char) (tokens : List Token)
    (prog : List Instruction)
    (hok : parser file tokens = .ok prog) :
    ∀ ins ∈ prog,
      ((ins.opcode = .OP_IF ∨ ins.opcode = .OP_ELSE) →
        ins.operands.length ≤ 1) ∧
      (ins.opcode = .OP_DO → ins.operands.length = 1) ∧
      (ins.opcode = .OP_END → ins.operands.length ≤ 1) ∧
      (ins.opcode = .OP_PUSH → ins.operands.length = 1) := by
  rcases hgo : parseGo file 0 tokens ⟨[], []⟩ with e | st' <;>
    rw [parser, hgo] at hok
  · cases hok
  · simp only [Except.map] at hok
    cases hok
    have hinv := parseGo_inv file tokens 0 ⟨[], []⟩ st' inv_init hgo
    intro ins hmem
    obtain ⟨p, hp⟩ := List.mem_iff_getElem?.1 hmem
    have hoc := hinv.2.1 p ins hp
    refine ⟨?_, ?_, ?_, ?_⟩
    · rintro (hx | hx) <;> rw [opcount, hx] at hoc <;> exact hoc
    · intro hx
      rw [opcount, hx] at hoc
      exact hoc
    · intro hx
      rw [opcount, hx] at hoc
      exact hoc
    · intro hx
      rw [opcount, hx] at hoc
      exact hoc

/-- Witness for C3 (amended) on the parse of `1 if 42 . end`. -/
theorem c3_witness :
    parser "f".data (lexer "1 if 42 . end".data) =
      .ok [⟨.OP_PUSH, [1], 0⟩, ⟨.OP_IF, [4], 1⟩, ⟨.OP_PUSH, [42], 2⟩,
           ⟨.OP_DUMP, [], 3⟩, ⟨.OP_END, [], 4⟩] ∧
    (∀ ins ∈ [(⟨.OP_PUSH, [1], 0⟩ : Instruction), ⟨.OP_IF, [4], 1⟩,
        ⟨.OP_PUSH, [42], 2⟩, ⟨.OP_DUMP, [], 3⟩, ⟨.OP_END, [], 4⟩],
      ((ins.opcode = .OP_IF ∨ ins.opcode = .OP_ELSE) →
        ins.operands.length ≤ 1) ∧
      (ins.opcode = .OP_DO → ins.operands.length = 1) ∧
      (ins.opcode = .OP_END → ins.operands.length ≤ 1) ∧
      (ins.opcode = .OP_PUSH → ins.operands.length = 1)) :=
  ⟨rfl, c3_amended "f".data (lexer "1 if 42 . end".data) _ rfl⟩

/-! ## Lexer idempotence -/

theorem words_single_eq (c : Char) :
    words [c] = if c.isWhitespace then [] else [[c]] := rfl

theorem words_cons_cons_eq (c d : Char) (l : List Char) :
    words (c :: d :: l) =
      if c.isWhitespace then words (d :: l)
      else if d.isWhitespace then [c] :: words (d :: l)
      else
        match words (d :: l) with
        | [] => [[c]]
        | w :: rs => (c :: w) :: rs := rfl

theorem words_ws_cons (c : Char) (l : List Char)
    (hc : c.isWhitespace = true) : words (c :: l) = words l := by
  cases l with
  | nil => rw [words_single_eq, if_pos hc]; rfl
  | cons d l' => rw [words_cons_cons_eq, if_pos hc]

theorem words_first (d : Char) (l : List Char) (hd : d.isWhitespace = false) :
    ∃ t rs, words (d :: l) = (d :: t) :: rs := by
  cases l with
  | nil =>
    refine ⟨[], [], ?_⟩
    rw [words_single_eq, if_neg (by simp [hd])]
  | cons e l2 =>
    rw [words_cons_cons_eq, if_neg (by simp [hd])]
    by_cases he : e.isWhitespace
    · rw [if_pos he]
      exact ⟨[], words (e :: l2), rfl⟩
    · rw [if_neg he]
      rcases hw : words (e :: l2) with _ | ⟨w0, rs⟩
      · exact ⟨[], [], rfl⟩
      · exact ⟨w0, rs, rfl⟩

theorem words_good : ∀ l : List Char, ∀ w ∈ words l,
    w ≠ [] ∧ ∀ ch ∈ w, ch.isWhitespace = false := by
  intro l
  induction l with
  | nil => intro w hw; simp [words] at hw
  | cons c l' ih =>
    intro w hw
    by_cases hc : c.isWhitespace
    · rw [words_ws_cons c l' hc] at hw
      exact ih w hw
    · have hc' : c.isWhitespace = false := by simpa using hc
      cases l' with
      | nil =>
        rw [words_single_eq, if_neg hc] at hw
        simp only [List.mem_singleton] at hw
        subst hw
        exact ⟨by simp, by simp [hc']⟩
      | cons d l'' =>
        rw [words_cons_cons_eq, if_neg hc] at hw
        by_cases hd : d.isWhitespace
        · rw [if_pos hd] at hw
          rcases List.mem_cons.1 hw with rfl | hw'
          · exact ⟨by simp, by simp [hc']⟩
          · exact ih w hw'
        · rw [if_neg hd] at hw
          rcases hws : words (d :: l'') with _ | ⟨w0, rs⟩ <;> rw [hws] at hw
          · simp only [List.mem_singleton] at hw
            subst hw
            exact ⟨by simp, by simp [hc']⟩
          · rcases List.mem_cons.1 hw with rfl | hw'
            · have h0 := ih w0 (by rw [hws]; exact List.mem_cons_self _ _)
              refine ⟨by simp, ?_⟩
              intro ch hch
              rcases List.mem_cons.1 hch with rfl | hch'
              · exact hc'
              · exact h0.2 ch hch'
            · exact ih w (by rw [hws]; exact List.mem_cons_of_mem _ hw')

theorem headSlash_cons (d : Char) (l : List Char) :
    headSlash (d :: l) = (d == '/') := by
  simp [headSlash]

theorem words_noDbl : ∀ l : List Char, noDbl l = true →
    ∀ w ∈ words l, noDbl w = true := by
  intro l
  induction l with
  | nil => intro _ w hw; simp [words] at hw
  | cons c l' ih =>
    intro hnd w hw
    rw [noDbl, Bool.and_eq_true] at hnd
    obtain ⟨hnd1, hnd2⟩ := hnd
    by_cases hc : c.isWhitespace
    · rw [words_ws_cons c l' hc] at hw
      exact ih hnd2 w hw
    · cases l' with
      | nil =>
        rw [words_single_eq, if_neg hc] at hw
        simp only [List.mem_singleton] at hw
        subst hw
        simp [noDbl, headSlash]
      | cons d l'' =>
        rw [words_cons_cons_eq, if_neg hc] at hw
        by_cases hd : d.isWhitespace
        · rw [if_pos hd] at hw
          rcases List.mem_cons.1 hw with rfl | hw'
          · simp [noDbl, headSlash]
          · exact ih hnd2 w hw'
        · rw [if_neg hd] at hw
          obtain ⟨t, rs, hws⟩ := words_first d l''
            (by simpa using hd)
          rw [hws] at hw
          rcases List.mem_cons.1 hw with rfl | hw'
          · rw [noDbl, Bool.and_eq_true]
            constructor
            · rw [headSlash_cons] at hnd1 ⊢
              exact hnd1
            · exact ih hnd2 (d :: t) (by rw [hws]; exact List.mem_cons_self _ _)
          · exact ih hnd2 w (by rw [hws]; exact List.mem_cons_of_mem _ hw')

theorem head_stripComment (l : List Char) (x : Char)
    (h : (stripComment l).head? = some x) : l.head? = some x := by
  cases l with
  | nil => simp [stripComment] at h
  | cons c l' =>
    rw [stripComment] at h
    by_cases hb : (c == '/' && headSlash l') = true
    · rw [if_pos hb] at h
      simp at h
    · rw [if_neg hb] at h
      simpa using h

theorem noDbl_stripComment : ∀ l : List Char,
    noDbl (stripComment l) = true := by
  intro l
  induction l with
  | nil => rfl
  | cons c l' ih =>
    rw [stripComment]
    by_cases hb : (c == '/' && headSlash l') = true
    · rw [if_pos hb]; rfl
    · rw [if_neg hb, noDbl, Bool.and_eq_true]
      refine ⟨?_, ih⟩
      rcases hcs : (c == '/') with _ | _
      · rfl
      · rcases hh : headSlash (stripComment l') with _ | _
        · rfl
        · exfalso
          rw [headSlash] at hh
          have hx : (stripComment l').head? = some '/' := by simpa using hh
          have hy := head_stripComment l' '/' hx
          apply hb
          rw [hcs, headSlash, hy]
          rfl

theorem stripComment_of_noDbl : ∀ l : List Char, noDbl l = true →
    stripComment l = l := by
  intro l
  induction l with
  | nil => intro _; rfl
  | cons c l' ih =>
    intro hnd
    rw [noDbl, Bool.and_eq_true] at hnd
    obtain ⟨hnd1, hnd2⟩ := hnd
    have h1 : (c == '/' && headSlash l') = false := by
      rcases hx : (c == '/' && headSlash l') with _ | _
      · rfl
      · rw [hx] at hnd1
        exact absurd hnd1 (by decide)
    rw [stripComment, if_neg (by simp [h1]), ih hnd2]

theorem splitNl_no_nl : ∀ l : List Char, (∀ ch ∈ l, ch ≠ '\n') →
    splitNl l = [l] := by
  intro l
  induction l with
  | nil => intro _; rfl
  | cons c l' ih =>
    intro h
    rw [splitNl, if_neg (h c (List.mem_cons_self _ _)),
      ih (fun ch hch => h ch (List.mem_cons_of_mem _ hch))]

theorem mem_joinSp : ∀ (ts : List (List Char)) (ch : Char),
    ch ∈ joinSp ts → ch = ' ' ∨ ∃ w ∈ ts, ch ∈ w := by
  intro ts
  induction ts with
  | nil => intro ch h; simp [joinSp] at h
  | cons w ts' ih =>
    intro ch h
    cases ts' with
    | nil => exact Or.inr ⟨w, by simp, by simpa [joinSp] using h⟩
    | cons w2 ts2 =>
      rw [joinSp] at h
      rcases List.mem_append.1 h with hw | hrest
      · exact Or.inr ⟨w, by simp, hw⟩
      · rcases List.mem_cons.1 hrest with rfl | h2
        · exact Or.inl rfl
        · rcases ih ch h2 with hsp | ⟨w3, hw3, hch⟩
          · exact Or.inl hsp
          · exact Or.inr ⟨w3, List.mem_cons_of_mem _ hw3, hch⟩

theorem noDbl_append_space : ∀ (w r : List Char), noDbl w = true →
    noDbl r = true → noDbl (w ++ ' ' :: r) = true := by
  intro w
  induction w with
  | nil =>
    intro r _ hr
    rw [List.nil_append, noDbl, Bool.and_eq_true]
    exact ⟨by rw [show (' ' == '/') = false from by decide]; rfl, hr⟩
  | cons c w' ih =>
    intro r hw hr
    rw [noDbl, Bool.and_eq_true] at hw
    rw [List.cons_append, noDbl, Bool.and_eq_true]
    refine ⟨?_, ih r hw.2 hr⟩
    cases w' with
    | nil =>
      rw [List.nil_append, headSlash_cons]
      simp
    | cons d w'' =>
      rw [List.cons_append, headSlash_cons]
      rw [headSlash_cons] at hw
      exact hw.1

theorem noDbl_joinSp : ∀ ts : List (List Char),
    (∀ w ∈ ts, noDbl w = true) → noDbl (joinSp ts) = true := by
  intro ts
  induction ts with
  | nil => intro _; rfl
  | cons w ts' ih =>
    intro h
    cases ts' with
    | nil => exact h w (by simp)
    | cons w2 ts2 =>
      rw [joinSp]
      exact noDbl_append_space _ _ (h w (by simp))
        (ih (fun x hx => h x (List.mem_cons_of_mem _ hx)))

theorem words_self : ∀ w : List Char, w ≠ [] →
    (∀ ch ∈ w, ch.isWhitespace = false) → words w = [w] := by
  intro w
  induction w with
  | nil => intro h; cases h rfl
  | cons c w' ih =>
    intro _ hchars
    have hc : c.isWhitespace = false := hchars c (List.mem_cons_self _ _)
    cases w' with
    | nil => rw [words_single_eq, if_neg (by simp [hc])]
    | cons d w'' =>
      have hd : d.isWhitespace = false := hchars d (by simp)
      rw [words_cons_cons_eq, if_neg (by simp [hc]), if_neg (by simp [hd]),
        ih (by simp) (fun ch hch => hchars ch (List.mem_cons_of_mem _ hch))]

theorem words_append_sp : ∀ (w r : List Char), w ≠ [] →
    (∀ ch ∈ w, ch.isWhitespace = false) →
    words (w ++ ' ' :: r) = w :: words r := by
  intro w
  induction w with
  | nil => intro r h; cases h rfl
  | cons c w' ih =>
    intro r _ hchars
    have hc : c.isWhitespace = false := hchars c (List.mem_cons_self _ _)
    cases w' with
    | nil =>
      rw [List.cons_append, List.nil_append, words_cons_cons_eq,
        if_neg (by simp [hc]), if_pos (by decide),
        words_ws_cons ' ' r (by decide)]
    | cons d w'' =>
      have hd : d.isWhitespace = false := hchars d (by simp)
      have ih' := ih r (by simp)
        (fun ch hch => hchars ch (List.mem_cons_of_mem _ hch))
      rw [List.cons_append] at ih' ⊢
      rw [List.cons_append, words_cons_cons_eq, if_neg (by simp [hc]),
        if_neg (by simp [hd]), ih']

theorem words_join : ∀ ts : List (List Char),
    (∀ w ∈ ts, w ≠ [] ∧ ∀ ch ∈ w, ch.isWhitespace = false) →
    words (joinSp ts) = ts := by
  intro ts
  induction ts with
  | nil => intro _; rfl
  | cons w ts' ih =>
    intro h
    obtain ⟨hne, hchars⟩ := h w (by simp)
    cases ts' with
    | nil => exact words_self w hne hchars
    | cons w2 ts2 =>
      rw [joinSp, words_append_sp w _ hne hchars,
        ih (fun x hx => h x (List.mem_cons_of_mem _ hx))]

theorem lexCols_texts (row : Nat) : ∀ (j : Nat) (ws : List (List Char)),
    (lexCols row j ws).map (·.tok) = ws := by
  intro j ws
  induction ws generalizing j with
  | nil => rfl
  | cons w ws' ih => simp [lexCols, ih]

theorem lexLines_texts : ∀ (ls : List (List Char)) (i : Nat),
    (lexLines i ls).map (·.tok) = lineTexts ls := by
  intro ls
  induction ls with
  | nil => intro i; rfl
  | cons line rest ih =>
    intro i
    rw [lexLines, lineTexts, List.map_append, lexCols_texts, ih]

theorem lexTexts_eq (src : List Char) :
    lexTexts src = lineTexts (splitNl src) := by
  rw [lexTexts, lexer, lexLines_texts]

theorem mem_lineTexts : ∀ (ls : List (List Char)) (w : List Char),
    w ∈ lineTexts ls → ∃ line ∈ ls, w ∈ words (stripComment line) := by
  intro ls
  induction ls with
  | nil => intro w h; simp [lineTexts] at h
  | cons line rest ih =>
    intro w h
    rw [lineTexts] at h
    rcases List.mem_append.1 h with h1 | h2
    · exact ⟨line, by simp, h1⟩
    · obtain ⟨l2, hl2, hw⟩ := ih w h2
      exact ⟨l2, List.mem_cons_of_mem _ hl2, hw⟩

/-- C9: tokenizer idempotence.  Concatenating the texts of the tokens
produced by the lexer with single spaces and tokenizing the result yields
the same ordered sequence of token texts (positions ignored). -/
theorem c9_tokenizer_idempotent (src : List Char) :
    (lexer (joinSp ((lexer src).map (·.tok)))).map (·.tok) =
      (lexer src).map (·.tok) := by
  have hgood : ∀ w ∈ lexTexts src,
      (w ≠ [] ∧ ∀ ch ∈ w, ch.isWhitespace = false) ∧ noDbl w = true := by
    intro w hw
    rw [lexTexts_eq] at hw
    obtain ⟨line, _, hwords⟩ := mem_lineTexts _ w hw
    exact ⟨words_good _ w hwords,
      words_noDbl _ (noDbl_stripComment line) w hwords⟩
  have hnl : ∀ ch ∈ joinSp (lexTexts src), ch ≠ '\n' := by
    intro ch hch
    rcases mem_joinSp _ ch hch with rfl | ⟨w, hw, hchw⟩
    · decide
    · intro hcon
      have := ((hgood w hw).1).2 ch hchw
      rw [hcon] at this
      simp [Char.isWhitespace] at this
  have hnd : noDbl (joinSp (lexTexts src)) = true :=
    noDbl_joinSp _ (fun w hw => (hgood w hw).2)
  show lexTexts (joinSp (lexTexts src)) = lexTexts src
  rw [lexTexts_eq (joinSp (lexTexts src)), splitNl_no_nl _ hnl, lineTexts,
    lineTexts, List.append_nil, stripComment_of_noDbl _ hnd,
    words_join _ (fun w hw => (hgood w hw).1)]

/-! ## Balanced programs parse successfully with in-range jump targets -/

theorem modifyAt_append_right {α : Type} (l r : List α) (n : Nat) (f : α → α)
    (h : l.length ≤ n) :
    modifyAt (l ++ r) n f = l ++ modifyAt r (n - l.length) f := by
  induction l generalizing n with
  | nil => simp
  | cons a l' ih =>
    cases n with
    | zero => simp at h
    | succ m =>
      rw [List.cons_append, modifyAt, ih m (Nat.le_of_succ_le_succ h)]
      simp [Nat.succ_sub_succ]

theorem modifyAt_at_cons {α : Type} (l1 : List α) (a : α) (l2 : List α)
    (n : Nat) (h : l1.length = n) (f : α → α) :
    modifyAt (l1 ++ a :: l2) n f = l1 ++ f a :: l2 := by
  rw [modifyAt_append_right l1 _ n f (by omega), h, Nat.sub_self]
  rfl

theorem getElem?_append_cons {α : Type} (l1 : List α) (a : α) (l2 : List α)
    (n : Nat) (h : l1.length = n) : (l1 ++ a :: l2)[n]? = some a := by
  rw [List.getElem?_append_right (by omega)]
  simp [h]

theorem parseGo_append_ok (f : List Char) (ts us : List Token) (c : Nat)
    (st st1 : PState) (h : parseGo f c ts st = .ok st1) :
    parseGo f c (ts ++ us) st = parseGo f (c + ts.length) us st1 := by
  induction ts generalizing c st with
  | nil =>
    cases h
    simp [parseGo]
  | cons t ts ih =>
    simp only [parseGo] at h
    rcases hs : parseStep f c t st with e | st2 <;> rw [hs] at h
    · cases show (Except.error e : Except PError PState) = .ok st1 from h
    · have h2 : parseGo f (c+1) ts st2 = .ok st1 := h
      have hgoal : parseGo f c (t :: (ts ++ us)) st =
          parseGo f (c+1) (ts ++ us) st2 := by
        simp only [parseGo]
        rw [hs]
      rw [List.cons_append, hgoal, ih (c+1) st2 h2]
      congr 1
      simp [List.length_cons]
      omega

/-- A valid atom token (operator or integer literal) parses to exactly one
non-control instruction with `ip = c`, leaving the cross-reference stack
unchanged. -/
theorem parseStep_atom (f : List Char) (c : Nat) (t : Token) (st : PState)
    (h : isValidAtom t.tok = true) :
    ∃ ins : Instruction,
      parseStep f c t st = .ok ⟨st.program ++ [ins], st.crossref⟩ ∧
      ins.ip = c ∧
      ¬(ins.opcode = .OP_IF ∨ ins.opcode = .OP_ELSE ∨
        ins.opcode = .OP_END ∨ ins.opcode = .OP_DO) := by
  rw [isValidAtom, Bool.or_eq_true] at h
  obtain ⟨tok, r, cl⟩ := t
  rcases h with hmem | hint
  · replace hmem := of_decide_eq_true hmem
    simp only [List.mem_cons, List.not_mem_nil, or_false] at hmem
    rcases hmem with rfl | rfl | rfl | rfl | rfl | rfl | rfl | rfl | rfl |
      rfl | rfl | rfl | rfl
    · exact ⟨⟨.OP_ADD, [], c⟩, rfl, rfl, by rintro (hx | hx | hx | hx) <;> cases hx⟩
    · exact ⟨⟨.OP_SUB, [], c⟩, rfl, rfl, by rintro (hx | hx | hx | hx) <;> cases hx⟩
    · exact ⟨⟨.OP_MUL, [], c⟩, rfl, rfl, by rintro (hx | hx | hx | hx) <;> cases hx⟩
    · exact ⟨⟨.OP_DIV, [], c⟩, rfl, rfl, by rintro (hx | hx | hx | hx) <;> cases hx⟩
    · exact ⟨⟨.OP_NOT, [], c⟩, rfl, rfl, by rintro (hx | hx | hx | hx) <;> cases hx⟩
    · exact ⟨⟨.OP_EQ, [], c⟩, rfl, rfl, by rintro (hx | hx | hx | hx) <;> cases hx⟩
    · exact ⟨⟨.OP_NE, [], c⟩, rfl, rfl, by rintro (hx | hx | hx | hx) <;> cases hx⟩
    · exact ⟨⟨.OP_GT, [], c⟩, rfl, rfl, by rintro (hx | hx | hx | hx) <;> cases hx⟩
    · exact ⟨⟨.OP_GE, [], c⟩, rfl, rfl, by rintro (hx | hx | hx | hx) <;> cases hx⟩
    · exact ⟨⟨.OP_LT, [], c⟩, rfl, rfl, by rintro (hx | hx | hx | hx) <;> cases hx⟩
    · exact ⟨⟨.OP_LE, [], c⟩, rfl, rfl, by rintro (hx | hx | hx | hx) <;> cases hx⟩
    · exact ⟨⟨.OP_DUMP, [], c⟩, rfl, rfl, by rintro (hx | hx | hx | hx) <;> cases hx⟩
    · exact ⟨⟨.OP_DUP, [], c⟩, rfl, rfl, by rintro (hx | hx | hx | hx) <;> cases hx⟩
  · simp only at hint
    obtain ⟨v, hv⟩ := Option.isSome_iff_exists.1 hint
    have hne : ∀ s : List Char, parseI64 s = none → tok ≠ s := by
      intro s hs hc
      rw [hc, hs] at hv
      exact Option.noConfusion hv
    refine ⟨⟨.OP_PUSH, [v], c⟩, ?_, rfl, by rintro (hx | hx | hx | hx) <;> cases hx⟩
    unfold parseStep
    rw [if_neg (hne "+".data rfl), if_neg (hne "-".data rfl),
      if_neg (hne "*".data rfl), if_neg (hne "/".data rfl),
      if_neg (hne "!".data rfl), if_neg (hne "=".data rfl),
      if_neg (hne "!=".data rfl), if_neg (hne ">".data rfl),
      if_neg (hne ">=".data rfl), if_neg (hne "<".data rfl),
      if_neg (hne "<=".data rfl), if_neg (hne ".".data rfl),
      if_neg (hne "dup".data rfl), if_neg (hne "if".data rfl),
      if_neg (hne "else".data rfl), if_neg (hne "while".data rfl),
      if_neg (hne "do".data rfl), if_neg (hne "end".data rfl), hv]

theorem parseStep_if_tok (f : List Char) (c : Nat) (t : Token) (st : PState)
    (h : t.tok = "if".data) :
    parseStep f c t st =
      .ok ⟨st.program ++ [⟨.OP_IF, [], c⟩], c :: st.crossref⟩ := by
  obtain ⟨tok, r, cl⟩ := t
  cases h
  rfl

theorem parseStep_else_tok (f : List Char) (c : Nat) (t : Token) (st : PState)
    (h : t.tok = "else".data) :
    parseStep f c t st =
      (match st.crossref with
       | [] => .error (.elseWithoutIf f t.row t.col c)
       | ifIp :: rest =>
         match (st.program ++ [⟨.OP_ELSE, [], c⟩])[ifIp]? with
         | none => .error .ixPanic
         | some ins =>
           if ins.opcode = .OP_IF then
             .ok ⟨modifyAt (st.program ++ [⟨.OP_ELSE, [], c⟩]) ifIp
                    (pushOperand (c : Int)), c :: rest⟩
           else .error (.elseWithoutIf f t.row t.col c)) := by
  obtain ⟨tok, r, cl⟩ := t
  cases h
  rfl

theorem parseStep_while_tok (f : List Char) (c : Nat) (t : Token) (st : PState)
    (h : t.tok = "while".data) :
    parseStep f c t st =
      (match (st.program ++ [⟨.OP_WHILE, [], c⟩])[c]? with
       | none => .error .ixPanic
       | some ins =>
         .ok ⟨st.program ++ [⟨.OP_WHILE, [], c⟩], ins.ip :: st.crossref⟩) := by
  obtain ⟨tok, r, cl⟩ := t
  cases h
  rfl

theorem parseStep_do_tok (f : List Char) (c : Nat) (t : Token) (st : PState)
    (h : t.tok = "do".data) :
    parseStep f c t st =
      (match st.crossref with
       | [] => .ok st
       | whileIp :: rest =>
         match st.program[whileIp]? with
         | none => .error .ixPanic
         | some ins =>
           if ins.opcode = .OP_WHILE then
             match (st.program ++ [⟨.OP_DO, [], c⟩])[c]? with
             | none => .error .ixPanic
             | some insc =>
               .ok ⟨modifyAt (st.program ++ [⟨.OP_DO, [], c⟩]) c
                      (pushOperand (whileIp : Int)), insc.ip :: rest⟩
           else .error (.doMismatch f t.row t.col c)) := by
  obtain ⟨tok, r, cl⟩ := t
  cases h
  rfl

theorem parseStep_end_tok (f : List Char) (c : Nat) (t : Token) (st : PState)
    (h : t.tok = "end".data) :
    parseStep f c t st =
      (match st.crossref with
       | [] => .error (.endWithoutOpener f t.row t.col c)
       | prevIp :: rest =>
         match (st.program ++ [⟨.OP_END, [], c⟩])[prevIp]? with
         | none => .error .ixPanic
         | some pins =>
           if pins.opcode = .OP_IF ∨ pins.opcode = .OP_ELSE then
             .ok ⟨modifyAt (st.program ++ [⟨.OP_END, [], c⟩]) prevIp
                    (pushOperand (c : Int)), rest⟩
           else if pins.opcode = .OP_WHILE then
             .error (.endPopWhile f t.row t.col c)
           else if pins.opcode = .OP_DO then
             match pins.operands.getLast? with
             | none => .error (.endDoWithoutWhile f t.row t.col c)
             | some w =>
               match (modifyAt (st.program ++ [⟨.OP_END, [], c⟩]) prevIp
                        popOperand)[c]? with
               | none => .error .ixPanic
               | some _ =>
                 .ok ⟨modifyAt (modifyAt (modifyAt
                        (st.program ++ [⟨.OP_END, [], c⟩])
                        prevIp popOperand) c (pushOperand w)) prevIp
                        (pushOperand (c : Int)), rest⟩
           else .ok ⟨st.program ++ [⟨.OP_END, [], c⟩], rest⟩) := by
  obtain ⟨tok, r, cl⟩ := t
  cases h
  rfl

theorem parseStep_while_state (f : List Char) (c : Nat) (t : Token)
    (ht : t.tok = "while".data) (st : PState)
    (hlen : st.program.length = c) :
    parseStep f c t st =
      .ok ⟨st.program ++ [⟨.OP_WHILE, [], c⟩], c :: st.crossref⟩ := by
  rw [parseStep_while_tok f c t st ht]
  have hlook : (st.program ++ [(⟨.OP_WHILE, [], c⟩ : Instruction)])[c]? =
      some ⟨.OP_WHILE, [], c⟩ := by
    rw [← hlen, List.getElem?_concat_length]
  simp only [hlook]

theorem parseStep_else_if (f : List Char) (l : Nat) (t : Token)
    (ht : t.tok = "else".data) (P : List Instruction) (cx : Nat)
    (X : List Nat) (ins : Instruction)
    (hlook : (P ++ [⟨.OP_ELSE, [], l⟩])[cx]? = some ins)
    (hIF : ins.opcode = .OP_IF) :
    parseStep f l t ⟨P, cx :: X⟩ =
      .ok ⟨modifyAt (P ++ [⟨.OP_ELSE, [], l⟩]) cx (pushOperand (l : Int)),
           l :: X⟩ := by
  rw [parseStep_else_tok f l t _ ht]
  simp only [hlook]
  rw [if_pos hIF]

theorem parseStep_do_while (f : List Char) (d : Nat) (t : Token)
    (ht : t.tok = "do".data) (P : List Instruction) (cx : Nat) (X : List Nat)
    (insw : Instruction)
    (hlookW : P[cx]? = some insw) (hW : insw.opcode = .OP_WHILE)
    (hlen : P.length = d) :
    parseStep f d t ⟨P, cx :: X⟩ =
      .ok ⟨modifyAt (P ++ [⟨.OP_DO, [], d⟩]) d (pushOperand (cx : Int)),
           d :: X⟩ := by
  rw [parseStep_do_tok f d t _ ht]
  simp only [hlookW]
  rw [if_pos hW]
  have hlookD : (P ++ [(⟨.OP_DO, [], d⟩ : Instruction)])[d]? =
      some ⟨.OP_DO, [], d⟩ := by
    rw [← hlen, List.getElem?_concat_length]
  simp only [hlookD]

theorem parseStep_end_if (f : List Char) (e : Nat) (t : Token)
    (ht : t.tok = "end".data) (P : List Instruction) (cx : Nat)
    (X : List Nat) (ins : Instruction)
    (hlook : (P ++ [⟨.OP_END, [], e⟩])[cx]? = some ins)
    (hIF : ins.opcode = .OP_IF ∨ ins.opcode = .OP_ELSE) :
    parseStep f e t ⟨P, cx :: X⟩ =
      .ok ⟨modifyAt (P ++ [⟨.OP_END, [], e⟩]) cx (pushOperand (e : Int)),
           X⟩ := by
  rw [parseStep_end_tok f e t _ ht]
  simp only [hlook]
  rw [if_pos hIF]

theorem parseStep_end_do (f : List Char) (e : Nat) (t : Token)
    (ht : t.tok = "end".data) (P : List Instruction) (dx : Nat) (X : List Nat)
    (pins : Instruction)
    (hlook : (P ++ [⟨.OP_END, [], e⟩])[dx]? = some pins)
    (hDO : pins.opcode = .OP_DO) (w : Int)
    (hw : pins.operands.getLast? = some w) (insc : Instruction)
    (hlookE : (modifyAt (P ++ [⟨.OP_END, [], e⟩]) dx popOperand)[e]? =
      some insc) :
    parseStep f e t ⟨P, dx :: X⟩ =
      .ok ⟨modifyAt (modifyAt (modifyAt (P ++ [⟨.OP_END, [], e⟩]) dx
             popOperand) e (pushOperand w)) dx (pushOperand (e : Int)),
           X⟩ := by
  rw [parseStep_end_tok f e t _ ht]
  simp only [hlook]
  rw [if_neg (by rw [hDO]; rintro (hx | hx) <;> cases hx),
    if_neg (by rw [hDO]; intro hx; cases hx), if_pos hDO]
  simp only [hw, hlookE]

theorem parseGo_cons_ok (f : List Char) (c : Nat) (t : Token)
    (ts : List Token) (st st' : PState) (h : parseStep f c t st = .ok st') :
    parseGo f c (t :: ts) st = parseGo f (c+1) ts st' := by
  simp only [parseGo]
  rw [h]

/-- Running the parser over a balanced block from a skip-free state appends
exactly one instruction per token, restores the cross-reference stack, and
every control-flow operand recorded inside the block is a token index of the
enclosing program segment, hence in `[0, c + |ts|)`. -/
theorem bal_run (b : Bool) (ts : List Token)
    (hbal : Bal isValidAtom b ts) :
    ∀ (f : List Char) (c : Nat) (st : PState), st.program.length = c →
    ∃ Δ : List Instruction,
      parseGo f c ts st = .ok ⟨st.program ++ Δ, st.crossref⟩ ∧
      Δ.length = ts.length ∧
      ∀ ins ∈ Δ, (ins.opcode = .OP_IF ∨ ins.opcode = .OP_ELSE ∨
          ins.opcode = .OP_END ∨ ins.opcode = .OP_DO) →
        ∀ o ∈ ins.operands, 0 ≤ o ∧ o < (c : Int) + ts.length := by
  induction hbal with
  | nil =>
    intro f c st hlen
    exact ⟨[], by simp [parseGo], rfl, by simp⟩
  | atom t w hA hw ih =>
    intro f c st hlen
    obtain ⟨ins, hstep, hip, hctrl⟩ := parseStep_atom f c t st hA
    obtain ⟨Δw, hrunW, hlenW, hbndW⟩ := ih f (c+1)
      ⟨st.program ++ [ins], st.crossref⟩ (by simp [hlen])
    have hrunW' : parseGo f (c+1) w ⟨st.program ++ [ins], st.crossref⟩ =
        .ok ⟨(st.program ++ [ins]) ++ Δw, st.crossref⟩ := hrunW
    refine ⟨ins :: Δw, ?_, by simp [hlenW], ?_⟩
    · rw [parseGo_cons_ok f c t w st _ hstep, hrunW']
      simp [List.append_assoc]
    · intro i hi hc o ho
      rcases List.mem_cons.1 hi with rfl | hi'
      · exact absurd hc hctrl
      · have hb := hbndW i hi' hc o ho
        refine ⟨hb.1, ?_⟩
        have h2 := hb.2
        simp only [List.length_cons] at h2 ⊢
        push_cast at h2 ⊢
        omega
  | iend t1 t2 u w ht1 ht2 hu hw ihu ihw =>
    intro f c st hlen
    obtain ⟨Δu, hrunU, hlenU, hbndU⟩ := ihu f (c+1)
      ⟨st.program ++ [⟨.OP_IF, [], c⟩], c :: st.crossref⟩ (by simp [hlen])
    have hrunU' : parseGo f (c+1) u
        ⟨st.program ++ [⟨.OP_IF, [], c⟩], c :: st.crossref⟩ =
        .ok ⟨(st.program ++ [⟨.OP_IF, [], c⟩]) ++ Δu, c :: st.crossref⟩ :=
      hrunU
    have hbndU' : ∀ ins ∈ Δu, (ins.opcode = .OP_IF ∨ ins.opcode = .OP_ELSE ∨
        ins.opcode = .OP_END ∨ ins.opcode = .OP_DO) →
        ∀ o ∈ ins.operands, 0 ≤ o ∧ o < ((c+1 : Nat) : Int) + u.length :=
      hbndU
    have hlook : (((st.program ++ [⟨.OP_IF, [], c⟩]) ++ Δu) ++
        [⟨.OP_END, [], c + 1 + u.length⟩])[c]? = some ⟨.OP_IF, [], c⟩ := by
      rw [show ((st.program ++ [(⟨.OP_IF, [], c⟩ : Instruction)]) ++ Δu) ++
          [(⟨.OP_END, [], c + 1 + u.length⟩ : Instruction)] =
          st.program ++ ((⟨.OP_IF, [], c⟩ : Instruction) ::
            (Δu ++ [⟨.OP_END, [], c + 1 + u.length⟩])) from by simp]
      exact getElem?_append_cons _ _ _ c hlen
    have hstep2 := parseStep_end_if f (c + 1 + u.length) t2 ht2
      ((st.program ++ [⟨.OP_IF, [], c⟩]) ++ Δu) c st.crossref
      ⟨.OP_IF, [], c⟩ hlook (Or.inl rfl)
    have hmod : modifyAt (((st.program ++ [⟨.OP_IF, [], c⟩]) ++ Δu) ++
        [⟨.OP_END, [], c + 1 + u.length⟩]) c
        (pushOperand ((c + 1 + u.length : Nat) : Int)) =
        st.program ++ (⟨.OP_IF, [((c + 1 + u.length : Nat) : Int)], c⟩ ::
          (Δu ++ [⟨.OP_END, [], c + 1 + u.length⟩])) := by
      rw [show ((st.program ++ [(⟨.OP_IF, [], c⟩ : Instruction)]) ++ Δu) ++
          [(⟨.OP_END, [], c + 1 + u.length⟩ : Instruction)] =
          st.program ++ ((⟨.OP_IF, [], c⟩ : Instruction) ::
            (Δu ++ [⟨.OP_END, [], c + 1 + u.length⟩])) from by simp,
        modifyAt_at_cons st.program _ _ c hlen]
      rfl
    rw [hmod] at hstep2
    obtain ⟨Δw, hrunW, hlenW, hbndW⟩ := ihw f (c + 1 + u.length + 1)
      ⟨st.program ++ (⟨.OP_IF, [((c + 1 + u.length : Nat) : Int)], c⟩ ::
        (Δu ++ [⟨.OP_END, [], c + 1 + u.length⟩])), st.crossref⟩
      (by simp [hlen, hlenU]; omega)
    have hrunW' : parseGo f (c + 1 + u.length + 1) w
        ⟨st.program ++ (⟨.OP_IF, [((c + 1 + u.length : Nat) : Int)], c⟩ ::
          (Δu ++ [⟨.OP_END, [], c + 1 + u.length⟩])), st.crossref⟩ =
        .ok ⟨(st.program ++ (⟨.OP_IF, [((c + 1 + u.length : Nat) : Int)], c⟩ ::
          (Δu ++ [⟨.OP_END, [], c + 1 + u.length⟩]))) ++ Δw,
          st.crossref⟩ := hrunW
    have hbndW' : ∀ ins ∈ Δw, (ins.opcode = .OP_IF ∨ ins.opcode = .OP_ELSE ∨
        ins.opcode = .OP_END ∨ ins.opcode = .OP_DO) →
        ∀ o ∈ ins.operands, 0 ≤ o ∧
          o < ((c + 1 + u.length + 1 : Nat) : Int) + w.length := hbndW
    refine ⟨⟨.OP_IF, [((c + 1 + u.length : Nat) : Int)], c⟩ ::
      (Δu ++ (⟨.OP_END, [], c + 1 + u.length⟩ :: Δw)), ?_, ?_, ?_⟩
    · rw [parseGo_cons_ok f c t1 _ st _ (parseStep_if_tok f c t1 st ht1),
        parseGo_append_ok f u (t2 :: w) (c+1) _ _ hrunU',
        parseGo_cons_ok f (c + 1 + u.length) t2 w _ _ hstep2, hrunW']
      simp [List.append_assoc]
    · simp only [List.length_cons, List.length_append, hlenU, hlenW]
    · intro i hi hctrl o ho
      rcases List.mem_cons.1 hi with rfl | hi2
      · simp only [List.mem_singleton] at ho
        subst ho
        constructor
        · positivity
        · simp only [List.length_cons, List.length_append]
          push_cast
          omega
      · rcases List.mem_append.1 hi2 with hiu | hi3
        · have hb := hbndU' i hiu hctrl o ho
          refine ⟨hb.1, ?_⟩
          have h2 := hb.2
          simp only [List.length_cons, List.length_append] at h2 ⊢
          push_cast at h2 ⊢
          omega
        · rcases List.mem_cons.1 hi3 with rfl | hiw
          · simp at ho
          · have hb := hbndW' i hiw hctrl o ho
            refine ⟨hb.1, ?_⟩
            have h2 := hb.2
            simp only [List.length_cons, List.length_append] at h2 ⊢
            push_cast at h2 ⊢
            omega
  | ielse t1 t2 t3 u v w ht1 ht2 ht3 hu hv hw ihu ihv ihw =>
    intro f c st hlen
    obtain ⟨Δu, hrunU, hlenU, hbndU⟩ := ihu f (c+1)
      ⟨st.program ++ [⟨.OP_IF, [], c⟩], c :: st.crossref⟩ (by simp [hlen])
    have hrunU' : parseGo f (c+1) u
        ⟨st.program ++ [⟨.OP_IF, [], c⟩], c :: st.crossref⟩ =
        .ok ⟨(st.program ++ [⟨.OP_IF, [], c⟩]) ++ Δu, c :: st.crossref⟩ :=
      hrunU
    have hbndU' : ∀ ins ∈ Δu, (ins.opcode = .OP_IF ∨ ins.opcode = .OP_ELSE ∨
        ins.opcode = .OP_END ∨ ins.opcode = .OP_DO) →
        ∀ o ∈ ins.operands, 0 ≤ o ∧ o < ((c+1 : Nat) : Int) + u.length :=
      hbndU
    -- the `else` step at index l := c + 1 + u.length
    have hlookE : (((st.program ++ [⟨.OP_IF, [], c⟩]) ++ Δu) ++
        [⟨.OP_ELSE, [], c + 1 + u.length⟩])[c]? = some ⟨.OP_IF, [], c⟩ := by
      rw [show ((st.program ++ [(⟨.OP_IF, [], c⟩ : Instruction)]) ++ Δu) ++
          [(⟨.OP_ELSE, [], c + 1 + u.length⟩ : Instruction)] =
          st.program ++ ((⟨.OP_IF, [], c⟩ : Instruction) ::
            (Δu ++ [⟨.OP_ELSE, [], c + 1 + u.length⟩])) from by simp]
      exact getElem?_append_cons _ _ _ c hlen
    have hstep2 := parseStep_else_if f (c + 1 + u.length) t2 ht2
      ((st.program ++ [⟨.OP_IF, [], c⟩]) ++ Δu) c st.crossref
      ⟨.OP_IF, [], c⟩ hlookE rfl
    have hmod2 : modifyAt (((st.program ++ [⟨.OP_IF, [], c⟩]) ++ Δu) ++
        [⟨.OP_ELSE, [], c + 1 + u.length⟩]) c
        (pushOperand ((c + 1 + u.length : Nat) : Int)) =
        st.program ++ (⟨.OP_IF, [((c + 1 + u.length : Nat) : Int)], c⟩ ::
          (Δu ++ [⟨.OP_ELSE, [], c + 1 + u.length⟩])) := by
      rw [show ((st.program ++ [(⟨.OP_IF, [], c⟩ : Instruction)]) ++ Δu) ++
          [(⟨.OP_ELSE, [], c + 1 + u.length⟩ : Instruction)] =
          st.program ++ ((⟨.OP_IF, [], c⟩ : Instruction) ::
            (Δu ++ [⟨.OP_ELSE, [], c + 1 + u.length⟩])) from by simp,
        modifyAt_at_cons st.program _ _ c hlen]
      rfl
    rw [hmod2] at hstep2
    -- run v from l + 1
    obtain ⟨Δv, hrunV, hlenV, hbndV⟩ := ihv f (c + 1 + u.length + 1)
      ⟨st.program ++ (⟨.OP_IF, [((c + 1 + u.length : Nat) : Int)], c⟩ ::
        (Δu ++ [⟨.OP_ELSE, [], c + 1 + u.length⟩])),
       (c + 1 + u.length) :: st.crossref⟩ (by simp [hlen, hlenU]; omega)
    have hrunV' : parseGo f (c + 1 + u.length + 1) v
        ⟨st.program ++ (⟨.OP_IF, [((c + 1 + u.length : Nat) : Int)], c⟩ ::
          (Δu ++ [⟨.OP_ELSE, [], c + 1 + u.length⟩])),
         (c + 1 + u.length) :: st.crossref⟩ =
        .ok ⟨(st.program ++ (⟨.OP_IF, [((c + 1 + u.length : Nat) : Int)], c⟩ ::
          (Δu ++ [⟨.OP_ELSE, [], c + 1 + u.length⟩]))) ++ Δv,
          (c + 1 + u.length) :: st.crossref⟩ := hrunV
    have hbndV' : ∀ ins ∈ Δv, (ins.opcode = .OP_IF ∨ ins.opcode = .OP_ELSE ∨
        ins.opcode = .OP_END ∨ ins.opcode = .OP_DO) →
        ∀ o ∈ ins.operands, 0 ≤ o ∧
          o < ((c + 1 + u.length + 1 : Nat) : Int) + v.length := hbndV
    -- the `end` step at index e := c + 1 + u.length + 1 + v.length
    have hlook3 : (((st.program ++
        (⟨.OP_IF, [((c + 1 + u.length : Nat) : Int)], c⟩ ::
          (Δu ++ [⟨.OP_ELSE, [], c + 1 + u.length⟩]))) ++ Δv) ++
        [⟨.OP_END, [], c + 1 + u.length + 1 + v.length⟩])[c + 1 + u.length]? =
        some ⟨.OP_ELSE, [], c + 1 + u.length⟩ := by
      rw [show ((st.program ++
          ((⟨.OP_IF, [((c + 1 + u.length : Nat) : Int)], c⟩ : Instruction) ::
            (Δu ++ [⟨.OP_ELSE, [], c + 1 + u.length⟩]))) ++ Δv) ++
          [(⟨.OP_END, [], c + 1 + u.length + 1 + v.length⟩ : Instruction)] =
          ((st.program ++ ⟨.OP_IF, [((c + 1 + u.length : Nat) : Int)], c⟩ ::
            Δu) ++ ((⟨.OP_ELSE, [], c + 1 + u.length⟩ : Instruction) ::
            (Δv ++ [⟨.OP_END, [], c + 1 + u.length + 1 + v.length⟩])))
          from by simp]
      exact getElem?_append_cons _ _ _ _ (by simp [hlen, hlenU]; omega)
    have hstep3 := parseStep_end_if f (c + 1 + u.length + 1 + v.length) t3 ht3
      (((st.program ++ (⟨.OP_IF, [((c + 1 + u.length : Nat) : Int)], c⟩ ::
        (Δu ++ [⟨.OP_ELSE, [], c + 1 + u.length⟩]))) ++ Δv))
      (c + 1 + u.length) st.crossref
      ⟨.OP_ELSE, [], c + 1 + u.length⟩ hlook3 (Or.inr rfl)
    have hmod3 : modifyAt (((st.program ++
        (⟨.OP_IF, [((c + 1 + u.length : Nat) : Int)], c⟩ ::
          (Δu ++ [⟨.OP_ELSE, [], c + 1 + u.length⟩]))) ++ Δv) ++
        [⟨.OP_END, [], c + 1 + u.length + 1 + v.length⟩]) (c + 1 + u.length)
        (pushOperand ((c + 1 + u.length + 1 + v.length : Nat) : Int)) =
        st.program ++ (⟨.OP_IF, [((c + 1 + u.length : Nat) : Int)], c⟩ ::
          (Δu ++ (⟨.OP_ELSE,
            [((c + 1 + u.length + 1 + v.length : Nat) : Int)],
            c + 1 + u.length⟩ ::
            (Δv ++ [⟨.OP_END, [], c + 1 + u.length + 1 + v.length⟩])))) := by
      rw [show ((st.program ++
          ((⟨.OP_IF, [((c + 1 + u.length : Nat) : Int)], c⟩ : Instruction) ::
            (Δu ++ [⟨.OP_ELSE, [], c + 1 + u.length⟩]))) ++ Δv) ++
          [(⟨.OP_END, [], c + 1 + u.length + 1 + v.length⟩ : Instruction)] =
          ((st.program ++ ⟨.OP_IF, [((c + 1 + u.length : Nat) : Int)], c⟩ ::
            Δu) ++ ((⟨.OP_ELSE, [], c + 1 + u.length⟩ : Instruction) ::
            (Δv ++ [⟨.OP_END, [], c + 1 + u.length + 1 + v.length⟩])))
          from by simp,
        modifyAt_at_cons _ _ _ _ (by simp [hlen, hlenU]; omega)]
      simp [pushOperand]
    rw [hmod3] at hstep3
    -- run w from e + 1
    obtain ⟨Δw, hrunW, hlenW, hbndW⟩ := ihw f
      (c + 1 + u.length + 1 + v.length + 1)
      ⟨st.program ++ (⟨.OP_IF, [((c + 1 + u.length : Nat) : Int)], c⟩ ::
        (Δu ++ (⟨.OP_ELSE, [((c + 1 + u.length + 1 + v.length : Nat) : Int)],
          c + 1 + u.length⟩ ::
          (Δv ++ [⟨.OP_END, [], c + 1 + u.length + 1 + v.length⟩])))),
       st.crossref⟩ (by simp [hlen, hlenU, hlenV]; omega)
    have hrunW' : parseGo f (c + 1 + u.length + 1 + v.length + 1) w
        ⟨st.program ++ (⟨.OP_IF, [((c + 1 + u.length : Nat) : Int)], c⟩ ::
          (Δu ++ (⟨.OP_ELSE,
            [((c + 1 + u.length + 1 + v.length : Nat) : Int)],
            c + 1 + u.length⟩ ::
            (Δv ++ [⟨.OP_END, [], c + 1 + u.length + 1 + v.length⟩])))),
         st.crossref⟩ =
        .ok ⟨(st.program ++ (⟨.OP_IF, [((c + 1 + u.length : Nat) : Int)], c⟩ ::
          (Δu ++ (⟨.OP_ELSE,
            [((c + 1 + u.length + 1 + v.length : Nat) : Int)],
            c + 1 + u.length⟩ ::
            (Δv ++ [⟨.OP_END, [], c + 1 + u.length + 1 + v.length⟩]))))) ++ Δw,
          st.crossref⟩ := hrunW
    have hbndW' : ∀ ins ∈ Δw, (ins.opcode = .OP_IF ∨ ins.opcode = .OP_ELSE ∨
        ins.opcode = .OP_END ∨ ins.opcode = .OP_DO) →
        ∀ o ∈ ins.operands, 0 ≤ o ∧
          o < ((c + 1 + u.length + 1 + v.length + 1 : Nat) : Int) + w.length :=
      hbndW
    refine ⟨⟨.OP_IF, [((c + 1 + u.length : Nat) : Int)], c⟩ ::
      (Δu ++ (⟨.OP_ELSE, [((c + 1 + u.length + 1 + v.length : Nat) : Int)],
        c + 1 + u.length⟩ ::
        (Δv ++ (⟨.OP_END, [], c + 1 + u.length + 1 + v.length⟩ :: Δw)))),
      ?_, ?_, ?_⟩
    · rw [parseGo_cons_ok f c t1 _ st _ (parseStep_if_tok f c t1 st ht1),
        parseGo_append_ok f u (t2 :: (v ++ t3 :: w)) (c+1) _ _ hrunU',
        parseGo_cons_ok f (c + 1 + u.length) t2 (v ++ t3 :: w) _ _ hstep2,
        parseGo_append_ok f v (t3 :: w) (c + 1 + u.length + 1) _ _ hrunV']
      rw [show c + 1 + u.length + 1 + v.length =
        c + 1 + u.length + 1 + v.length from rfl]
      rw [parseGo_cons_ok f (c + 1 + u.length + 1 + v.length) t3 w _ _ hstep3,
        hrunW']
      simp [List.append_assoc]
    · simp only [List.length_cons, List.length_append, hlenU, hlenV, hlenW]
    · intro i hi hctrl o ho
      rcases List.mem_cons.1 hi with rfl | hi2
      · simp only [List.mem_singleton] at ho
        subst ho
        refine ⟨by positivity, ?_⟩
        simp only [List.length_cons, List.length_append]
        push_cast
        omega
      · rcases List.mem_append.1 hi2 with hiu | hi3
        · have hb := hbndU' i hiu hctrl o ho
          refine ⟨hb.1, ?_⟩
          have h2 := hb.2
          simp only [List.length_cons, List.length_append] at h2 ⊢
          push_cast at h2 ⊢
          omega
        · rcases List.mem_cons.1 hi3 with rfl | hi4
          · simp only [List.mem_singleton] at ho
            subst ho
            refine ⟨by positivity, ?_⟩
            simp only [List.length_cons, List.length_append]
            push_cast
            omega
          · rcases List.mem_append.1 hi4 with hiv | hi5
            · have hb := hbndV' i hiv hctrl o ho
              refine ⟨hb.1, ?_⟩
              have h2 := hb.2
              simp only [List.length_cons, List.length_append] at h2 ⊢
              push_cast at h2 ⊢
              omega
            · rcases List.mem_cons.1 hi5 with rfl | hiw
              · simp at ho
              · have hb := hbndW' i hiw hctrl o ho
                refine ⟨hb.1, ?_⟩
                have h2 := hb.2
                simp only [List.length_cons, List.length_append] at h2 ⊢
                push_cast at h2 ⊢
                omega
  | wdo t1 t2 t3 u v w ht1 ht2 ht3 hu hv hw ihu ihv ihw =>
    intro f c st hlen
    obtain ⟨Δu, hrunU, hlenU, hbndU⟩ := ihu f (c+1)
      ⟨st.program ++ [⟨.OP_WHILE, [], c⟩], c :: st.crossref⟩ (by simp [hlen])
    have hrunU' : parseGo f (c+1) u
        ⟨st.program ++ [⟨.OP_WHILE, [], c⟩], c :: st.crossref⟩ =
        .ok ⟨(st.program ++ [⟨.OP_WHILE, [], c⟩]) ++ Δu, c :: st.crossref⟩ :=
      hrunU
    have hbndU' : ∀ ins ∈ Δu, (ins.opcode = .OP_IF ∨ ins.opcode = .OP_ELSE ∨
        ins.opcode = .OP_END ∨ ins.opcode = .OP_DO) →
        ∀ o ∈ ins.operands, 0 ≤ o ∧ o < ((c+1 : Nat) : Int) + u.length :=
      hbndU
    -- the `do` step at index d := c + 1 + u.length
    have hlookW : ((st.program ++ [⟨.OP_WHILE, [], c⟩]) ++ Δu)[c]? =
        some ⟨.OP_WHILE, [], c⟩ := by
      rw [show (st.program ++ [(⟨.OP_WHILE, [], c⟩ : Instruction)]) ++ Δu =
          st.program ++ ((⟨.OP_WHILE, [], c⟩ : Instruction) :: Δu)
          from by simp]
      exact getElem?_append_cons _ _ _ c hlen
    have hstep2 := parseStep_do_while f (c + 1 + u.length) t2 ht2
      ((st.program ++ [⟨.OP_WHILE, [], c⟩]) ++ Δu) c st.crossref
      ⟨.OP_WHILE, [], c⟩ hlookW rfl (by simp [hlen, hlenU]; omega)
    have hmod2 : modifyAt (((st.program ++ [⟨.OP_WHILE, [], c⟩]) ++ Δu) ++
        [⟨.OP_DO, [], c + 1 + u.length⟩]) (c + 1 + u.length)
        (pushOperand (c : Int)) =
        st.program ++ (⟨.OP_WHILE, [], c⟩ ::
          (Δu ++ [⟨.OP_DO, [(c : Int)], c + 1 + u.length⟩])) := by
      rw [show ((st.program ++ [(⟨.OP_WHILE, [], c⟩ : Instruction)]) ++ Δu) ++
          [(⟨.OP_DO, [], c + 1 + u.length⟩ : Instruction)] =
          ((st.program ++ ⟨.OP_WHILE, [], c⟩ :: Δu) ++
            ((⟨.OP_DO, [], c + 1 + u.length⟩ : Instruction) :: []))
          from by simp,
        modifyAt_at_cons _ _ _ _ (by simp [hlen, hlenU]; omega)]
      simp [pushOperand]
    rw [hmod2] at hstep2
    -- run v from d + 1
    obtain ⟨Δv, hrunV, hlenV, hbndV⟩ := ihv f (c + 1 + u.length + 1)
      ⟨st.program ++ (⟨.OP_WHILE, [], c⟩ ::
        (Δu ++ [⟨.OP_DO, [(c : Int)], c + 1 + u.length⟩])),
       (c + 1 + u.length) :: st.crossref⟩ (by simp [hlen, hlenU]; omega)
    have hrunV' : parseGo f (c + 1 + u.length + 1) v
        ⟨st.program ++ (⟨.OP_WHILE, [], c⟩ ::
          (Δu ++ [⟨.OP_DO, [(c : Int)], c + 1 + u.length⟩])),
         (c + 1 + u.length) :: st.crossref⟩ =
        .ok ⟨(st.program ++ (⟨.OP_WHILE, [], c⟩ ::
          (Δu ++ [⟨.OP_DO, [(c : Int)], c + 1 + u.length⟩]))) ++ Δv,
          (c + 1 + u.length) :: st.crossref⟩ := hrunV
    have hbndV' : ∀ ins ∈ Δv, (ins.opcode = .OP_IF ∨ ins.opcode = .OP_ELSE ∨
        ins.opcode = .OP_END ∨ ins.opcode = .OP_DO) →
        ∀ o ∈ ins.operands, 0 ≤ o ∧
          o < ((c + 1 + u.length + 1 : Nat) : Int) + v.length := hbndV
    -- the `end` step at index e := c + 1 + u.length + 1 + v.length
    have hlookD : (((st.program ++ (⟨.OP_WHILE, [], c⟩ ::
        (Δu ++ [⟨.OP_DO, [(c : Int)], c + 1 + u.length⟩]))) ++ Δv) ++
        [⟨.OP_END, [], c + 1 + u.length + 1 + v.length⟩])[c + 1 + u.length]? =
        some ⟨.OP_DO, [(c : Int)], c + 1 + u.length⟩ := by
      rw [show ((st.program ++ ((⟨.OP_WHILE, [], c⟩ : Instruction) ::
          (Δu ++ [⟨.OP_DO, [(c : Int)], c + 1 + u.length⟩]))) ++ Δv) ++
          [(⟨.OP_END, [], c + 1 + u.length + 1 + v.length⟩ : Instruction)] =
          ((st.program ++ ⟨.OP_WHILE, [], c⟩ :: Δu) ++
            ((⟨.OP_DO, [(c : Int)], c + 1 + u.length⟩ : Instruction) ::
              (Δv ++ [⟨.OP_END, [], c + 1 + u.length + 1 + v.length⟩])))
          from by simp]
      exact getElem?_append_cons _ _ _ _ (by simp [hlen, hlenU]; omega)
    have hmodP : modifyAt (((st.program ++ (⟨.OP_WHILE, [], c⟩ ::
        (Δu ++ [⟨.OP_DO, [(c : Int)], c + 1 + u.length⟩]))) ++ Δv) ++
        [⟨.OP_END, [], c + 1 + u.length + 1 + v.length⟩]) (c + 1 + u.length)
        popOperand =
        (st.program ++ ⟨.OP_WHILE, [], c⟩ :: Δu) ++
          (⟨.OP_DO, [], c + 1 + u.length⟩ ::
            (Δv ++ [⟨.OP_END, [], c + 1 + u.length + 1 + v.length⟩])) := by
      rw [show ((st.program ++ ((⟨.OP_WHILE, [], c⟩ : Instruction) ::
          (Δu ++ [⟨.OP_DO, [(c : Int)], c + 1 + u.length⟩]))) ++ Δv) ++
          [(⟨.OP_END, [], c + 1 + u.length + 1 + v.length⟩ : Instruction)] =
          ((st.program ++ ⟨.OP_WHILE, [], c⟩ :: Δu) ++
            ((⟨.OP_DO, [(c : Int)], c + 1 + u.length⟩ : Instruction) ::
              (Δv ++ [⟨.OP_END, [], c + 1 + u.length + 1 + v.length⟩])))
          from by simp,
        modifyAt_at_cons _ _ _ _ (by simp [hlen, hlenU]; omega)]
      rfl
    have hlookEnd : ((st.program ++ ⟨.OP_WHILE, [], c⟩ :: Δu) ++
        (⟨.OP_DO, [], c + 1 + u.length⟩ ::
          (Δv ++ [⟨.OP_END, [], c + 1 + u.length + 1 + v.length⟩])))[
        c + 1 + u.length + 1 + v.length]? =
        some ⟨.OP_END, [], c + 1 + u.length + 1 + v.length⟩ := by
      rw [show (st.program ++ (⟨.OP_WHILE, [], c⟩ : Instruction) :: Δu) ++
          ((⟨.OP_DO, [], c + 1 + u.length⟩ : Instruction) ::
            (Δv ++ [⟨.OP_END, [], c + 1 + u.length + 1 + v.length⟩])) =
          (((st.program ++ ⟨.OP_WHILE, [], c⟩ :: Δu) ++
            ⟨.OP_DO, [], c + 1 + u.length⟩ :: Δv) ++
            ((⟨.OP_END, [], c + 1 + u.length + 1 + v.length⟩ : Instruction) ::
              []))
          from by simp]
      exact getElem?_append_cons _ _ _ _ (by simp [hlen, hlenU, hlenV]; omega)
    have hstep3 := parseStep_end_do f (c + 1 + u.length + 1 + v.length) t3 ht3
      (((st.program ++ (⟨.OP_WHILE, [], c⟩ ::
        (Δu ++ [⟨.OP_DO, [(c : Int)], c + 1 + u.length⟩]))) ++ Δv))
      (c + 1 + u.length) st.crossref
      ⟨.OP_DO, [(c : Int)], c + 1 + u.length⟩ hlookD rfl (c : Int) rfl
      ⟨.OP_END, [], c + 1 + u.length + 1 + v.length⟩ (by rw [hmodP]; exact hlookEnd)
    rw [hmodP] at hstep3
    have hmodE : modifyAt ((st.program ++ ⟨.OP_WHILE, [], c⟩ :: Δu) ++
        (⟨.OP_DO, [], c + 1 + u.length⟩ ::
          (Δv ++ [⟨.OP_END, [], c + 1 + u.length + 1 + v.length⟩])))
        (c + 1 + u.length + 1 + v.length) (pushOperand (c : Int)) =
        (st.program ++ ⟨.OP_WHILE, [], c⟩ :: Δu) ++
          (⟨.OP_DO, [], c + 1 + u.length⟩ ::
            (Δv ++ [⟨.OP_END, [(c : Int)],
              c + 1 + u.length + 1 + v.length⟩])) := by
      rw [show (st.program ++ (⟨.OP_WHILE, [], c⟩ : Instruction) :: Δu) ++
          ((⟨.OP_DO, [], c + 1 + u.length⟩ : Instruction) ::
            (Δv ++ [⟨.OP_END, [], c + 1 + u.length + 1 + v.length⟩])) =
          (((st.program ++ ⟨.OP_WHILE, [], c⟩ :: Δu) ++
            ⟨.OP_DO, [], c + 1 + u.length⟩ :: Δv) ++
            ((⟨.OP_END, [], c + 1 + u.length + 1 + v.length⟩ : Instruction) ::
              []))
          from by simp,
        modifyAt_at_cons _ _ _ _ (by simp [hlen, hlenU, hlenV]; omega)]
      simp [pushOperand]
    rw [hmodE] at hstep3
    have hmodD : modifyAt ((st.program ++ ⟨.OP_WHILE, [], c⟩ :: Δu) ++
        (⟨.OP_DO, [], c + 1 + u.length⟩ ::
          (Δv ++ [⟨.OP_END, [(c : Int)],
            c + 1 + u.length + 1 + v.length⟩]))) (c + 1 + u.length)
        (pushOperand ((c + 1 + u.length + 1 + v.length : Nat) : Int)) =
        st.program ++ (⟨.OP_WHILE, [], c⟩ ::
          (Δu ++ (⟨.OP_DO, [((c + 1 + u.length + 1 + v.length : Nat) : Int)],
            c + 1 + u.length⟩ ::
            (Δv ++ [⟨.OP_END, [(c : Int)],
              c + 1 + u.length + 1 + v.length⟩])))) := by
      rw [modifyAt_at_cons _ _ _ _ (by simp [hlen, hlenU]; omega)]
      simp [pushOperand]
    rw [hmodD] at hstep3
    -- run w from e + 1
    obtain ⟨Δw, hrunW, hlenW, hbndW⟩ := ihw f
      (c + 1 + u.length + 1 + v.length + 1)
      ⟨st.program ++ (⟨.OP_WHILE, [], c⟩ ::
        (Δu ++ (⟨.OP_DO, [((c + 1 + u.length + 1 + v.length : Nat) : Int)],
          c + 1 + u.length⟩ ::
          (Δv ++ [⟨.OP_END, [(c : Int)],
            c + 1 + u.length + 1 + v.length⟩])))),
       st.crossref⟩ (by simp [hlen, hlenU, hlenV]; omega)
    have hrunW' : parseGo f (c + 1 + u.length + 1 + v.length + 1) w
        ⟨st.program ++ (⟨.OP_WHILE, [], c⟩ ::
          (Δu ++ (⟨.OP_DO, [((c + 1 + u.length + 1 + v.length : Nat) : Int)],
            c + 1 + u.length⟩ ::
            (Δv ++ [⟨.OP_END, [(c : Int)],
              c + 1 + u.length + 1 + v.length⟩])))),
         st.crossref⟩ =
        .ok ⟨(st.program ++ (⟨.OP_WHILE, [], c⟩ ::
          (Δu ++ (⟨.OP_DO, [((c + 1 + u.length + 1 + v.length : Nat) : Int)],
            c + 1 + u.length⟩ ::
            (Δv ++ [⟨.OP_END, [(c : Int)],
              c + 1 + u.length + 1 + v.length⟩]))))) ++ Δw,
          st.crossref⟩ := hrunW
    have hbndW' : ∀ ins ∈ Δw, (ins.opcode = .OP_IF ∨ ins.opcode = .OP_ELSE ∨
        ins.opcode = .OP_END ∨ ins.opcode = .OP_DO) →
        ∀ o ∈ ins.operands, 0 ≤ o ∧
          o < ((c + 1 + u.length + 1 + v.length + 1 : Nat) : Int) + w.length :=
      hbndW
    refine ⟨⟨.OP_WHILE, [], c⟩ ::
      (Δu ++ (⟨.OP_DO, [((c + 1 + u.length + 1 + v.length : Nat) : Int)],
        c + 1 + u.length⟩ ::
        (Δv ++ (⟨.OP_END, [(c : Int)], c + 1 + u.length + 1 + v.length⟩ ::
          Δw)))), ?_, ?_, ?_⟩
    · rw [parseGo_cons_ok f c t1 _ st _
        (parseStep_while_state f c t1 ht1 st hlen),
        parseGo_append_ok f u (t2 :: (v ++ t3 :: w)) (c+1) _ _ hrunU',
        parseGo_cons_ok f (c + 1 + u.length) t2 (v ++ t3 :: w) _ _ hstep2,
        parseGo_append_ok f v (t3 :: w) (c + 1 + u.length + 1) _ _ hrunV',
        parseGo_cons_ok f (c + 1 + u.length + 1 + v.length) t3 w _ _ hstep3,
        hrunW']
      simp [List.append_assoc]
    · simp only [List.length_cons, List.length_append, hlenU, hlenV, hlenW]
    · intro i hi hctrl o ho
      rcases List.mem_cons.1 hi with rfl | hi2
      · simp at ho
      · rcases List.mem_append.1 hi2 with hiu | hi3
        · have hb := hbndU' i hiu hctrl o ho
          refine ⟨hb.1, ?_⟩
          have h2 := hb.2
          simp only [List.length_cons, List.length_append] at h2 ⊢
          push_cast at h2 ⊢
          omega
        · rcases List.mem_cons.1 hi3 with rfl | hi4
          · simp only [List.mem_singleton] at ho
            subst ho
            refine ⟨by positivity, ?_⟩
            simp only [List.length_cons, List.length_append]
            push_cast
            omega
          · rcases List.mem_append.1 hi4 with hiv | hi5
            · have hb := hbndV' i hiv hctrl o ho
              refine ⟨hb.1, ?_⟩
              have h2 := hb.2
              simp only [List.length_cons, List.length_append] at h2 ⊢
              push_cast at h2 ⊢
              omega
            · rcases List.mem_cons.1 hi5 with rfl | hiw
              · simp only [List.mem_singleton] at ho
                subst ho
                refine ⟨by positivity, ?_⟩
                simp only [List.length_cons, List.length_append]
                push_cast
                omega
              · have hb := hbndW' i hiw hctrl o ho
                refine ⟨hb.1, ?_⟩
                have h2 := hb.2
                simp only [List.length_cons, List.length_append] at h2 ⊢
                push_cast at h2 ⊢
                omega

/-- C10 (counterexample): the claim fails as stated.  With only the control
tokens constrained, the balanced one-token sequence `foo` (no control tokens
at all) is rejected by the parser: a non-operator token must parse as an
integer, and `foo` does not. -/
theorem c10_counterexample :
    ¬ (∀ ts : List Token, Bal nonCtrl true ts →
        ∃ prog, parser [] ts = .ok prog) := by
  intro h
  obtain ⟨prog, hp⟩ := h [⟨"foo".data, 0, 0⟩]
    (Bal.atom ⟨"foo".data, 0, 0⟩ [] (by decide) Bal.nil)
  rw [show parser [] [⟨"foo".data, 0, 0⟩] =
    .error (.expectedInteger [] 0 0 0 "foo".data) from rfl] at hp
  cases hp

/-- C10 (amended): for every token sequence whose control tokens are
properly balanced as `if … end`, `if … else … end`, or `while … do … end`
blocks (nested ifs allowed, no nested while blocks) and whose remaining
tokens are valid atoms (operator words or 64-bit integer literals), the
parser succeeds, and every control-flow operand recorded on IF, ELSE, DO and
END instructions is a valid instruction index: non-negative and strictly
less than the program length. -/
theorem c10_amended (f : List Char) (ts : List Token)
    (hbal : Bal isValidAtom true ts) :
    ∃ prog : List Instruction, parser f ts = .ok prog ∧
      ∀ ins ∈ prog, (ins.opcode = .OP_IF ∨ ins.opcode = .OP_ELSE ∨
          ins.opcode = .OP_END ∨ ins.opcode = .OP_DO) →
        ∀ o ∈ ins.operands, 0 ≤ o ∧ o < (prog.length : Int) := by
  obtain ⟨Δ, hrun, hlenD, hbnd⟩ := bal_run true ts hbal f 0 ⟨[], []⟩ rfl
  refine ⟨Δ, ?_, ?_⟩
  · rw [parser, hrun]
    rfl
  · intro ins hins hctrl o ho
    have hb := hbnd ins hins hctrl o ho
    refine ⟨hb.1, ?_⟩
    have h2 := hb.2
    rw [hlenD]
    simpa using h2

/-- Witness for C10 (amended) on the balanced token sequence of
`1 if 42 . end 0 if 7 . else 42 . end`. -/
theorem c10_witness :
    ∃ prog : List Instruction,
      parser "f".data [⟨"1".data, 0, 0⟩, ⟨"if".data, 0, 1⟩,
        ⟨"42".data, 0, 2⟩, ⟨".".data, 0, 3⟩, ⟨"end".data, 0, 4⟩,
        ⟨"0".data, 0, 5⟩, ⟨"if".data, 0, 6⟩, ⟨"7".data, 0, 7⟩,
        ⟨".".data, 0, 8⟩, ⟨"else".data, 0, 9⟩, ⟨"42".data, 0, 10⟩,
        ⟨".".data, 0, 11⟩, ⟨"end".data, 0, 12⟩] = .ok prog ∧
      ∀ ins ∈ prog, (ins.opcode = .OP_IF ∨ ins.opcode = .OP_ELSE ∨
          ins.opcode = .OP_END ∨ ins.opcode = .OP_DO) →
        ∀ o ∈ ins.operands, 0 ≤ o ∧ o < (prog.length : Int) :=
  c10_amended "f".data _
    (Bal.atom ⟨"1".data, 0, 0⟩ _ (by decide)
      (Bal.iend ⟨"if".data, 0, 1⟩ ⟨"end".data, 0, 4⟩
        [⟨"42".data, 0, 2⟩, ⟨".".data, 0, 3⟩]
        [⟨"0".data, 0, 5⟩, ⟨"if".data, 0, 6⟩, ⟨"7".data, 0, 7⟩,
         ⟨".".data, 0, 8⟩, ⟨"else".data, 0, 9⟩, ⟨"42".data, 0, 10⟩,
         ⟨".".data, 0, 11⟩, ⟨"end".data, 0, 12⟩] rfl rfl
        (Bal.atom ⟨"42".data, 0, 2⟩ _ (by decide)
          (Bal.atom ⟨".".data, 0, 3⟩ _ (by decide) Bal.nil))
        (Bal.atom ⟨"0".data, 0, 5⟩ _ (by decide)
          (Bal.ielse ⟨"if".data, 0, 6⟩ ⟨"else".data, 0, 9⟩
            ⟨"end".data, 0, 12⟩
            [⟨"7".data, 0, 7⟩, ⟨".".data, 0, 8⟩]
            [⟨"42".data, 0, 10⟩, ⟨".".data, 0, 11⟩] [] rfl rfl rfl
            (Bal.atom ⟨"7".data, 0, 7⟩ _ (by decide)
              (Bal.atom ⟨".".data, 0, 8⟩ _ (by decide) Bal.nil))
            (Bal.atom ⟨"42".data, 0, 10⟩ _ (by decide)
              (Bal.atom ⟨".".data, 0, 11⟩ _ (by decide) Bal.nil))
            Bal.nil))))

end Rorth
